import Mathlib

/-! # vNotation: annotation state, pointer protocol and label export

A shallow embedding of `script.js`.  Numbers that the script computes with
(pointer coordinates, box geometry, normalized values) are rationals; the
intrinsic pixel size of an image and of the canvas are naturals.  The global
`state` object becomes the record `State`, extended with the two pieces of DOM
state that the handlers read back: the canvas size (`elements.canvas.width`,
`elements.canvas.height`) and the number parsed from the class selector
(`parseInt(elements.classSelect.value)`, `none` standing for `NaN`).
Each event handler is a function `State → ... → State`.
-/

namespace VNotation

/-! ## Data model -/

/-- The transient rectangle `state.currentBox`: `{x, y, width, height}`. -/
structure Rect where
  x : ℚ
  y : ℚ
  width : ℚ
  height : ℚ
  deriving DecidableEq

/-- A stored box: `{...state.currentBox, class: classId, className: state.classes[classId]}`.
`class_ = none` is `NaN`, `className = none` is `undefined`. -/
structure Box extends Rect where
  class_ : Option Nat
  className : Option String
  deriving DecidableEq

/-- A loaded image file: its `name` and the intrinsic size its decoded picture has. -/
structure ImageFile where
  name : String
  width : Nat
  height : Nat
  deriving DecidableEq

/-- The `state` object of the script together with the DOM state the handlers read. -/
structure State where
  images : List ImageFile
  currentIndex : Int
  annotations : String → Option (List Box)
  drawing : Bool
  startX : ℚ
  startY : ℚ
  currentBox : Option Rect
  selectedAnnotation : Option Nat
  classes : List String
  canvasWidth : Nat
  canvasHeight : Nat
  classSelect : Option Nat

/-- A mouse event: `e.clientX`, `e.clientY`. -/
structure MouseEvent where
  clientX : ℚ
  clientY : ℚ

/-- The result of `elements.canvas.getBoundingClientRect()`. -/
structure ClientRect where
  left : ℚ
  top : ℚ
  width : ℚ
  height : ℚ

/-- The keys the `keydown` handler distinguishes. -/
inductive Key where
  | ArrowRight
  | ArrowLeft
  | Delete
  | Backspace
  | other
  deriving DecidableEq

/-! ## Reading the state -/

/-- The element `state.images[i]` for an integer index (`undefined` is `none`). -/
def imageAt (imgs : List ImageFile) (i : Int) : Option ImageFile :=
  if 0 ≤ i then imgs.get? i.toNat else none

/-- The value of `state.images[state.currentIndex]?.name`. -/
def fileName (s : State) : Option String :=
  (imageAt s.images s.currentIndex).map ImageFile.name

/-- The property key that `state.annotations[fileName]` uses: an `undefined`
file name is coerced to the string `"undefined"`. -/
def keyOf (fn : Option String) : String :=
  fn.getD "undefined"

/-- The value of `state.annotations[name] || []`. -/
def boxesOf (s : State) (name : String) : List Box :=
  (s.annotations name).getD []

/-- The value of `state.annotations[fileName] || []` for the displayed image. -/
def currentBoxes (s : State) : List Box :=
  boxesOf s (keyOf (fileName s))

/-- Assignment `state.annotations[key] = bs`. -/
def setAnnotations (ann : String → Option (List Box)) (key : String) (bs : List Box) :
    String → Option (List Box) :=
  fun k => if k = key then some bs else ann k

/-! ## Coordinate mapping -/

/-- The lines `scaleX = canvas.width / rect.width; x = (e.clientX - rect.left) * scaleX`. -/
def toImageX (s : State) (e : MouseEvent) (rect : ClientRect) : ℚ :=
  (e.clientX - rect.left) * ((s.canvasWidth : ℚ) / rect.width)

/-- The lines `scaleY = canvas.height / rect.height; y = (e.clientY - rect.top) * scaleY`. -/
def toImageY (s : State) (e : MouseEvent) (rect : ClientRect) : ℚ :=
  (e.clientY - rect.top) * ((s.canvasHeight : ℚ) / rect.height)

/-! ## Pointer press: hit test -/

/-- The condition of the hit-test loop body. -/
def containsPoint (box : Box) (x y : ℚ) : Bool :=
  decide (x ≥ box.x) && decide (x ≤ box.x + box.width) &&
    decide (y ≥ box.y) && decide (y ≤ box.y + box.height)

/-- The loop `for (let i = boxes.length - 1; i >= 0; i--)` with `k = i + 1` iterations
left to run: it yields the first index found going down, `-1` if the loop ends. -/
def hitLoop (boxes : List Box) (x y : ℚ) : Nat → Int
  | 0 => -1
  | i + 1 =>
    match boxes.get? i with
    | some box => if containsPoint box x y then (i : Int) else hitLoop boxes x y i
    | none => hitLoop boxes x y i

/-- The value of `clickedBox` after the loop. -/
def clickedBox (boxes : List Box) (x y : ℚ) : Int :=
  hitLoop boxes x y boxes.length

/-- The `mousedown` handler of the canvas. -/
def mousedown (s : State) (e : MouseEvent) (rect : ClientRect) : State :=
  let x := toImageX s e rect
  let y := toImageY s e rect
  let hit := clickedBox (currentBoxes s) x y
  if hit ≠ -1 then
    { s with selectedAnnotation := some hit.toNat }
  else
    { s with drawing := true, startX := x, startY := y, selectedAnnotation := none }

/-! ## Pointer move: the transient box -/

/-- The object literal assigned to `state.currentBox` in the `mousemove` handler. -/
def dragBox (startX startY x y : ℚ) : Rect :=
  let width := x - startX
  let height := y - startY
  { x := if width < 0 then x else startX
    y := if height < 0 then y else startY
    width := |width|
    height := |height| }

/-- The `mousemove` handler of the canvas. -/
def mousemove (s : State) (e : MouseEvent) (rect : ClientRect) : State :=
  if !s.drawing then s
  else
    let x := toImageX s e rect
    let y := toImageY s e rect
    { s with currentBox := some (dragBox s.startX s.startY x y) }

/-! ## Pointer release: commit -/

/-- The value of `state.classes[classId]` (`undefined` when out of range or `NaN`). -/
def classNameAt (classes : List String) (classId : Option Nat) : Option String :=
  classId.bind classes.get?

/-- The condition `state.drawing && state.currentBox && width > 5 && height > 5`,
yielding the transient box when it holds. -/
def commitBox (s : State) : Option Rect :=
  if s.drawing then
    match s.currentBox with
    | some b => if b.width > 5 ∧ b.height > 5 then some b else none
    | none => none
  else none

/-- The `mouseup` handler of the canvas. -/
def mouseup (s : State) : State :=
  let s1 : State :=
    match commitBox s with
    | some b =>
      let key := keyOf (fileName s)
      let classId := s.classSelect
      let stored : Box := { toRect := b, class_ := classId, className := classNameAt s.classes classId }
      { s with annotations := setAnnotations s.annotations key (boxesOf s key ++ [stored]) }
    | none => s
  { s1 with drawing := false, currentBox := none }

/-! ## Wheel: class cycling -/

/-- The `wheel` handler of the canvas.  `elements.classSelect.value = newValue` selects the
option whose value is `newValue`; the options are the indices below `state.classes.length`,
and a value matching no option leaves the selector without a number. -/
def wheel (s : State) (deltaY : ℚ) : State :=
  if s.classes.length = 0 then s
  else
    let newValue : Nat :=
      if deltaY < 0 then
        (match s.classSelect with
          | some currentValue => if currentValue > 0 then currentValue - 1 else s.classes.length - 1
          | none => s.classes.length - 1)
      else
        (match s.classSelect with
          | some currentValue => if currentValue < s.classes.length - 1 then currentValue + 1 else 0
          | none => 0)
    { s with classSelect := if newValue < s.classes.length then some newValue else none }

/-! ## Navigation and deletion -/

/-- The function `loadImage(index)`, with the file read and the picture decode completed:
the canvas takes the intrinsic size of the picture. -/
def loadImage (s : State) (index : Int) : State :=
  if index < 0 ∨ index ≥ (s.images.length : Int) then s
  else
    match imageAt s.images index with
    | some file =>
      { s with currentIndex := index, selectedAnnotation := none,
               canvasWidth := file.width, canvasHeight := file.height }
    | none => { s with currentIndex := index, selectedAnnotation := none }

/-- The `keydown` handler of the document. -/
def keydown (s : State) (key : Key) : State :=
  if key = Key.ArrowRight ∧ s.currentIndex < (s.images.length : Int) - 1 then
    loadImage s (s.currentIndex + 1)
  else if key = Key.ArrowLeft ∧ s.currentIndex > 0 then
    loadImage s (s.currentIndex - 1)
  else if key = Key.Delete ∨ key = Key.Backspace then
    match State.selectedAnnotation s with
    | some sel =>
      let key := keyOf (fileName s)
      match s.annotations key with
      | some bs =>
        { s with annotations := setAnnotations s.annotations key (bs.eraseIdx sel),
                 selectedAnnotation := none }
      | none => s
    | none => s
  else s

/-! ## Normalized values: annotation list and export -/

/-- The four numbers of a label: centre x, centre y, width, height. -/
structure Normalized where
  centerX : ℚ
  centerY : ℚ
  width : ℚ
  height : ℚ
  deriving DecidableEq

/-- The four constants `centerX`, `centerY`, `width`, `height` of the `boxes.map` callback in
the export handler, for canvas size `cw × ch`. -/
def yoloValues (box : Box) (cw ch : Nat) : Normalized :=
  { centerX := (box.x + box.width / 2) / (cw : ℚ)
    centerY := (box.y + box.height / 2) / (ch : ℚ)
    width := box.width / (cw : ℚ)
    height := box.height / (ch : ℚ) }

/-- One element of `yoloLines` before the join: the interpolated values of
`${box.class} ${centerX} ${centerY} ${width} ${height}`. -/
structure YoloLine where
  class_ : Option Nat
  values : Normalized
  deriving DecidableEq

/-- One call `labelsFolder.file(path, yoloLines)`. -/
structure LabelEntry where
  path : String
  lines : List YoloLine
  deriving DecidableEq

/-- The calls the export handler makes on the archive. -/
structure Archive where
  images : List String
  labels : List LabelEntry
  classesTxt : String
  deriving DecidableEq

/-- Whether the characters after a dot are an extension for `/\.[^/.]+$/`: at least one
character, none of them a slash or a dot, up to the end of the name. -/
def isExtTail (cs : List Char) : Bool :=
  !cs.isEmpty && cs.all (fun c => c != '/' && c != '.')

/-- The replacement `name.replace(/\.[^/.]+$/, '')` on the characters of the name: the
leftmost position where the pattern matches is cut off together with what follows. -/
def stripExt : List Char → List Char
  | [] => []
  | c :: rest => if c = '.' ∧ isExtTail rest = true then [] else c :: stripExt rest

/-- The constant `baseName` of the export loop. -/
def baseName (name : String) : String :=
  String.mk (stripExt name.data)

/-- The path of the label file of an image: `${baseName}.txt`. -/
def labelPath (name : String) : String :=
  baseName name ++ ".txt"

/-- The `boxes.map` callback of the export handler. -/
def yoloLine (s : State) (box : Box) : YoloLine :=
  { class_ := box.class_, values := yoloValues box s.canvasWidth s.canvasHeight }

/-- The body of the export loop for one file: the label entry it adds. -/
def labelEntry (s : State) (file : ImageFile) : LabelEntry :=
  { path := labelPath file.name, lines := (boxesOf s file.name).map (yoloLine s) }

/-- The `click` handler of the export button: `none` when it returns early with an alert,
otherwise the entries handed to the archive. -/
def exportBtn (s : State) : Option Archive :=
  if s.images.length = 0 then none
  else if s.classes.length = 0 then none
  else some
    { images := s.images.map ImageFile.name
      labels := s.images.map (labelEntry s)
      classesTxt := String.intercalate "\n" s.classes }

/-- A box lies fully inside an image of size `w × h`. -/
def insideImage (box : Box) (w h : Nat) : Prop :=
  0 ≤ box.x ∧ 0 ≤ box.y ∧ 0 ≤ box.width ∧ 0 ≤ box.height ∧
    box.x + box.width ≤ (w : ℚ) ∧ box.y + box.height ≤ (h : ℚ)

/-! ## Class list edit -/

/-- The characters `String.prototype.trim` removes: the white space characters (tab, vertical
tab, form feed, byte order mark, space separators) and the line terminators. -/
def isWhiteSpace (c : Char) : Bool :=
  let n := c.toNat
  n == 0x9 || n == 0xA || n == 0xB || n == 0xC || n == 0xD || n == 0x20 || n == 0xA0 ||
    n == 0x1680 || (0x2000 ≤ n && n ≤ 0x200A) || n == 0x2028 || n == 0x2029 || n == 0x202F ||
    n == 0x205F || n == 0x3000 || n == 0xFEFF

/-- The method `line.trim()` on the characters of the line. -/
def trim (line : List Char) : List Char :=
  (line.dropWhile isWhiteSpace).rdropWhile isWhiteSpace

/-- The expression `text.split('\n').map(line => line.trim()).filter(line => line.length > 0)`. -/
def parseClasses (text : String) : List String :=
  (((text.data.splitOn '\n').map trim).filter (fun line => decide (line.length > 0))).map String.mk

/-- The `input` handler of the class text area.  With at least one class the selector is
rebuilt with one option per index and shows the first one; with none it holds the single
option `Enter classes first`, which `parseInt` turns into `NaN`. -/
def classesInput (s : State) (text : String) : State :=
  let classes := parseClasses text
  { s with classes := classes, classSelect := if classes.length > 0 then some 0 else none }

/-! ## Load, image list, clear -/

/-- The test `/\.(jpg|jpeg|png|bmp|gif)$/i` on a file name. -/
def isImageName (name : String) : Bool :=
  [".jpg", ".jpeg", ".png", ".bmp", ".gif"].any
    (fun ext => ext.data.isSuffixOf (name.data.map Char.toLower))

/-- The `drop` handler of the drop zone, for the files found by the traversal and the
collation `localeCompare` of the browser. -/
def drop (s : State) (files : List ImageFile) (localeCompare : String → String → Int) : State :=
  let images := (files.filter (fun f => isImageName f.name)).mergeSort
    (fun a b => decide (localeCompare a.name b.name ≤ 0))
  let s1 : State := { s with images := images }
  if images.length > 0 then loadImage s1 0 else s1

/-- The `onclick` of an entry of the image list: `loadImage(index)`. -/
def imageClick (s : State) (index : Nat) : State :=
  loadImage s (index : Int)

/-- The `click` handler of the clear button, `confirm` being the answer of the dialog. -/
def clearBtn (s : State) (confirm : Bool) : State :=
  match fileName s with
  | some fn =>
    if fn ≠ "" ∧ confirm = true then
      { s with annotations := setAnnotations s.annotations fn [], selectedAnnotation := none }
    else s
  | none => s

/-- What `drawCanvas` draws: every box of the displayed image with its `isSelected` flag, and
the dashed transient box. -/
structure Drawn where
  boxes : List (Box × Bool)
  dashed : Option Rect

/-- The function `drawCanvas`. -/
def drawCanvas (s : State) : Drawn :=
  { boxes := (currentBoxes s).enum.map
      (fun p => (p.2, decide (some p.1 = State.selectedAnnotation s)))
    dashed := s.currentBox }

/-! ## Event sequences -/

/-- The user events of a session. -/
inductive Event where
  | mousedown (e : MouseEvent) (rect : ClientRect)
  | mousemove (e : MouseEvent) (rect : ClientRect)
  | mouseup
  | keydown (key : Key)
  | wheel (deltaY : ℚ)
  | clear (confirm : Bool)
  | classesInput (text : String)
  | imageClick (index : Nat)
  | drop (files : List ImageFile) (localeCompare : String → String → Int)

/-- The handler that an event runs. -/
def step (s : State) : Event → State
  | Event.mousedown e rect => mousedown s e rect
  | Event.mousemove e rect => mousemove s e rect
  | Event.mouseup => mouseup s
  | Event.keydown key => keydown s key
  | Event.wheel deltaY => wheel s deltaY
  | Event.clear confirm => clearBtn s confirm
  | Event.classesInput text => classesInput s text
  | Event.imageClick index => imageClick s index
  | Event.drop files localeCompare => drop s files localeCompare

/-- The state after a sequence of events. -/
def run (s : State) (events : List Event) : State :=
  events.foldl step s

/-- The pointer position of a mouse event lies inside the rendering surface. -/
def insideSurface (e : MouseEvent) (rect : ClientRect) : Prop :=
  0 < rect.width ∧ 0 < rect.height ∧
    rect.left ≤ e.clientX ∧ e.clientX ≤ rect.left + rect.width ∧
    rect.top ≤ e.clientY ∧ e.clientY ≤ rect.top + rect.height

instance (e : MouseEvent) (rect : ClientRect) : Decidable (insideSurface e rect) := by
  unfold insideSurface
  infer_instance

/-- The pointer position of an event, when it has one, lies inside the rendering surface. -/
def pointerInside : Event → Prop
  | Event.mousedown e rect => insideSurface e rect
  | Event.mousemove e rect => insideSurface e rect
  | _ => True

/-! ## Invariants of the store -/

/-- A stored box has a non-negative corner and both sides above the minimum size 5. -/
def boxValid (b : Box) : Prop :=
  0 ≤ b.x ∧ 0 ≤ b.y ∧ 5 < b.width ∧ 5 < b.height

/-- Every box stored under any name is valid. -/
def storeValid (s : State) : Prop :=
  ∀ name bs, s.annotations name = some bs → ∀ b ∈ bs, boxValid b

/-- The drag start point and the corner of the transient box are non-negative. -/
def dragValid (s : State) : Prop :=
  0 ≤ s.startX ∧ 0 ≤ s.startY ∧ ∀ r, s.currentBox = some r → 0 ≤ r.x ∧ 0 ≤ r.y

/-- The selection is none or an index into the box sequence of the displayed image. -/
def selectionValid (s : State) : Prop :=
  ∀ i, State.selectedAnnotation s = some i → i < (currentBoxes s).length

/-- With a non-empty registry the class selector holds an index below its length. -/
def selectorValid (s : State) : Prop :=
  s.classes ≠ [] → ∃ c, s.classSelect = some c ∧ c < s.classes.length

/-- A load event delivers at least one file with an image extension. -/
def deliversImage : Event → Prop
  | Event.drop files _ => files.filter (fun f => isImageName f.name) ≠ []
  | _ => True

/-! ## Concrete sessions -/

/-- The `state` literal at the top of the script, with a canvas of the default size
300 × 150 and a class selector that holds no number. -/
def initialState : State :=
  { images := []
    currentIndex := -1
    annotations := fun _ => none
    drawing := false
    startX := 0
    startY := 0
    currentBox := none
    selectedAnnotation := none
    classes := []
    canvasWidth := 300
    canvasHeight := 150
    classSelect := none }

/-- A canvas shown at its intrinsic size 1000 × 1000 in the top-left corner of the page. -/
def fullRect : ClientRect :=
  { left := 0, top := 0, width := 1000, height := 1000 }

/-- A session with two images of different sizes, the first one displayed, and one class. -/
def twoImages : State :=
  { initialState with
    images := [⟨"large.png", 1000, 1000⟩, ⟨"small.png", 100, 100⟩]
    currentIndex := 0
    classes := ["cat"]
    classSelect := some 0
    canvasWidth := 1000
    canvasHeight := 1000 }

/-- The session `twoImages` after a drag from (50, 50) to (10, 20) has started and moved. -/
def dragging : State :=
  mousemove (mousedown twoImages ⟨50, 50⟩ fullRect) ⟨10, 20⟩ fullRect

/-- A box of class 0 with the given geometry. -/
def boxAt (x y width height : ℚ) : Box :=
  { x := x, y := y, width := width, height := height, class_ := some 0, className := some "cat" }

/-- A session showing an image that has the three boxes `A`, `B`, `C`, the second selected. -/
def threeBoxes : State :=
  { twoImages with
    annotations := setAnnotations (fun _ => none) "large.png"
      [boxAt 0 0 10 10, boxAt 20 20 10 10, boxAt 40 40 10 10]
    selectedAnnotation := some 1 }

/-- A session with three classes, the last one chosen in the selector. -/
def threeClasses : State :=
  { initialState with classes := ["a", "b", "c"], classSelect := some 2 }

/-- The session `twoImages` after a box was drawn from (500, 500) to (700, 700) on the large
image and the right arrow key then moved on to the small image. -/
def drawnThenMoved : State :=
  keydown
    (mouseup (mousemove (mousedown twoImages ⟨500, 500⟩ fullRect) ⟨700, 700⟩ fullRect))
    Key.ArrowRight

/-- A session whose two images differ only in their extension. -/
def sameBase : State :=
  { initialState with
    images := [⟨"a.jpg", 300, 150⟩, ⟨"a.png", 300, 150⟩]
    currentIndex := 0
    classes := ["cat"]
    classSelect := some 0 }

/-- A session showing a 300 × 150 image with one box of width 100 and height 50. -/
def thirdWidth : State :=
  { initialState with
    images := [⟨"a.png", 300, 150⟩]
    currentIndex := 0
    classes := ["cat"]
    classSelect := some 0
    annotations := setAnnotations (fun _ => none) "a.png" [boxAt 0 0 100 50] }

/-- A collation for `localeCompare`: the order of the code points. -/
def codePointCompare (a b : String) : Int :=
  if a < b then -1 else if b < a then 1 else 0

/-- A canvas shown at its intrinsic size 300 × 150 in the top-left corner of the page. -/
def smallRect : ClientRect :=
  { left := 0, top := 0, width := 300, height := 150 }

/-- The events of a session: the class `cat` is entered, the image `a.png` is loaded, a box is
drawn from (10, 10) to (50, 50) and then clicked. -/
def drawAndSelect : List Event :=
  [Event.classesInput "cat",
   Event.drop [⟨"a.png", 300, 150⟩] codePointCompare,
   Event.mousedown ⟨10, 10⟩ smallRect,
   Event.mousemove ⟨50, 50⟩ smallRect,
   Event.mouseup,
   Event.mousedown ⟨20, 20⟩ smallRect]

/-- The events `drawAndSelect` followed by the drop of a folder that holds no image. -/
def selectThenEmptyDrop : List Event :=
  drawAndSelect ++ [Event.drop [⟨"notes.txt", 0, 0⟩] codePointCompare]

/-- The events of a session: the class `cat` is entered, the image `a.png` is loaded, the
class text is emptied, and a box is drawn from (10, 10) to (50, 50). -/
def drawWithoutClasses : List Event :=
  [Event.classesInput "cat",
   Event.drop [⟨"a.png", 300, 150⟩] codePointCompare,
   Event.classesInput "",
   Event.mousedown ⟨10, 10⟩ smallRect,
   Event.mousemove ⟨50, 50⟩ smallRect,
   Event.mouseup]

/-- The session `twoImages` after a drag from (500, 500) to (700, 700) on the large image,
the right arrow key pressed during the drag, and the pointer released on the small image. -/
def movedThenReleased : State :=
  mouseup
    (keydown (mousemove (mousedown twoImages ⟨500, 500⟩ fullRect) ⟨700, 700⟩ fullRect)
      Key.ArrowRight)

/-- The session after the class `cat` was entered and the image `a.png` was loaded. -/
def loadedOne : State :=
  { initialState with
    images := [⟨"a.png", 300, 150⟩]
    currentIndex := 0
    classes := ["cat"]
    classSelect := some 0 }

/-- The events of a drag from (10, 10) to (50, 50) on the canvas `smallRect`. -/
def drawSmallBox : List Event :=
  [Event.mousedown ⟨10, 10⟩ smallRect, Event.mousemove ⟨50, 50⟩ smallRect, Event.mouseup]

end VNotation

namespace VNotation

/-! ## Hit test -/

theorem containsPoint_iff (box : Box) (x y : ℚ) :
    containsPoint box x y = true ↔
      box.x ≤ x ∧ x ≤ box.x + box.width ∧ box.y ≤ y ∧ y ≤ box.y + box.height := by
  simp [containsPoint, and_assoc]

theorem hitLoop_spec (boxes : List Box) (x y : ℚ) (k : Nat) :
    (hitLoop boxes x y k = -1 ∧
        ∀ j b, j < k → boxes.get? j = some b → containsPoint b x y = false) ∨
      (∃ i b, i < k ∧ hitLoop boxes x y k = (i : Int) ∧ boxes.get? i = some b ∧
        containsPoint b x y = true ∧
        ∀ j c, i < j → j < k → boxes.get? j = some c → containsPoint c x y = false) := by
  induction k with
  | zero =>
    left
    exact ⟨rfl, fun j b hj => absurd hj (Nat.not_lt_zero j)⟩
  | succ k ih =>
    cases hk : boxes.get? k with
    | none =>
      have hstep : hitLoop boxes x y (k + 1) = hitLoop boxes x y k := by
        simp only [hitLoop, hk]
      rcases ih with ⟨h1, h2⟩ | ⟨i, b, hik, h1, h2, h3, h4⟩
      · left
        refine ⟨by rw [hstep, h1], fun j b hj hb => ?_⟩
        rcases Nat.lt_succ_iff_lt_or_eq.mp hj with hlt | heq
        · exact h2 j b hlt hb
        · subst heq; rw [hk] at hb; cases hb
      · right
        refine ⟨i, b, Nat.lt_succ_of_lt hik, by rw [hstep, h1], h2, h3, fun j c hij hj hc => ?_⟩
        rcases Nat.lt_succ_iff_lt_or_eq.mp hj with hlt | heq
        · exact h4 j c hij hlt hc
        · subst heq; rw [hk] at hc; cases hc
    | some bk =>
      cases hc : containsPoint bk x y with
      | true =>
        right
        refine ⟨k, bk, Nat.lt_succ_self k, by simp only [hitLoop, hk, hc, if_true], hk, hc, ?_⟩
        intro j c hkj hj
        omega
      | false =>
        have hstep : hitLoop boxes x y (k + 1) = hitLoop boxes x y k := by
          simp only [hitLoop, hk, hc]
          simp
        rcases ih with ⟨h1, h2⟩ | ⟨i, b, hik, h1, h2, h3, h4⟩
        · left
          refine ⟨by rw [hstep, h1], fun j b hj hb => ?_⟩
          rcases Nat.lt_succ_iff_lt_or_eq.mp hj with hlt | heq
          · exact h2 j b hlt hb
          · subst heq; rw [hk] at hb; cases hb; exact hc
        · right
          refine ⟨i, b, Nat.lt_succ_of_lt hik, by rw [hstep, h1], h2, h3, fun j c hij hj hcj => ?_⟩
          rcases Nat.lt_succ_iff_lt_or_eq.mp hj with hlt | heq
          · exact h4 j c hij hlt hcj
          · subst heq; rw [hk] at hcj; cases hcj; exact hc

theorem clickedBox_cases (boxes : List Box) (x y : ℚ) :
    (clickedBox boxes x y = -1 ∧
        ∀ j b, boxes.get? j = some b → containsPoint b x y = false) ∨
      (∃ i b, i < boxes.length ∧ clickedBox boxes x y = (i : Int) ∧ boxes.get? i = some b ∧
        containsPoint b x y = true ∧
        ∀ j c, i < j → boxes.get? j = some c → containsPoint c x y = false) := by
  rcases hitLoop_spec boxes x y boxes.length with ⟨h1, h2⟩ | ⟨i, b, hik, h1, h2, h3, h4⟩
  · left
    refine ⟨h1, fun j b hb => h2 j b ?_ hb⟩
    exact (List.get?_eq_some.mp hb).1
  · right
    refine ⟨i, b, hik, h1, h2, h3, fun j c hij hc => h4 j c hij ?_ hc⟩
    exact (List.get?_eq_some.mp hc).1

/-- C3: the hit test of the pointer press returns index `i` exactly when box `i` contains the
point (inclusive bounds on all four edges) and no box of greater index does; it returns `-1`
exactly when no box contains the point; and it returns nothing but `-1` or an index of the
sequence. -/
theorem clickedBox_greatest_containing (boxes : List Box) (x y : ℚ) :
    (∀ i : Nat, clickedBox boxes x y = (i : Int) ↔
      (∃ b, boxes.get? i = some b ∧
        b.x ≤ x ∧ x ≤ b.x + b.width ∧ b.y ≤ y ∧ y ≤ b.y + b.height) ∧
      ∀ j c, i < j → boxes.get? j = some c →
        ¬ (c.x ≤ x ∧ x ≤ c.x + c.width ∧ c.y ≤ y ∧ y ≤ c.y + c.height)) ∧
    (clickedBox boxes x y = -1 ↔
      ∀ j c, boxes.get? j = some c →
        ¬ (c.x ≤ x ∧ x ≤ c.x + c.width ∧ c.y ≤ y ∧ y ≤ c.y + c.height)) ∧
    (clickedBox boxes x y = -1 ∨
      ∃ i : Nat, i < boxes.length ∧ clickedBox boxes x y = (i : Int)) := by
  have hno : ∀ c : Box, containsPoint c x y = false ↔
      ¬ (c.x ≤ x ∧ x ≤ c.x + c.width ∧ c.y ≤ y ∧ y ≤ c.y + c.height) := by
    intro c
    rw [← containsPoint_iff]
    cases containsPoint c x y <;> simp
  refine ⟨fun i => ⟨fun h => ?_, fun h => ?_⟩, ⟨fun h => ?_, fun h => ?_⟩, ?_⟩
  · rcases clickedBox_cases boxes x y with ⟨h1, _⟩ | ⟨i', b, _, h1, h2, h3, h4⟩
    · rw [h1] at h; omega
    · have hii : i' = i := by rw [h1] at h; exact_mod_cast h
      subst hii
      exact ⟨⟨b, h2, (containsPoint_iff b x y).mp h3⟩,
        fun j c hij hc => (hno c).mp (h4 j c hij hc)⟩
  · obtain ⟨⟨b, hb, hin⟩, hgt⟩ := h
    rcases clickedBox_cases boxes x y with ⟨_, h2⟩ | ⟨i', b', _, h1, h2, h3, h4⟩
    · have := h2 i b hb
      rw [(containsPoint_iff b x y).mpr hin] at this
      cases this
    · rw [h1]
      rcases Nat.lt_trichotomy i i' with hlt | heq | hgt'
      · exact absurd ((containsPoint_iff b' x y).mp h3) (hgt i' b' hlt h2)
      · rw [heq]
      · have := h4 i b hgt' hb
        rw [(containsPoint_iff b x y).mpr hin] at this
        cases this
  · rcases clickedBox_cases boxes x y with ⟨_, h2⟩ | ⟨i', b, _, h1, _, _, _⟩
    · exact fun j c hc => (hno c).mp (h2 j c hc)
    · rw [h1] at h; omega
  · rcases clickedBox_cases boxes x y with ⟨h1, _⟩ | ⟨i', b, _, _, h2, h3, _⟩
    · exact h1
    · exact absurd ((containsPoint_iff b x y).mp h3) (h i' b h2)
  · rcases clickedBox_cases boxes x y with ⟨h1, _⟩ | ⟨i', b, hi, h1, _, _, _⟩
    · exact Or.inl h1
    · exact Or.inr ⟨i', hi, h1⟩

/-! ## Drag, commit, delete, wheel -/

/-- C4: while a drag is in progress the pointer move sets the transient box to the one with
`x = min(startX, curX)`, `y = min(startY, curY)`, `width = |curX - startX|`,
`height = |curY - startY|`; its width and height are never negative and swapping the start
and current points gives the same box. -/
theorem mousemove_transient_box (s : State) (e : MouseEvent) (rect : ClientRect)
    (hd : s.drawing = true) :
    (mousemove s e rect).currentBox =
        some { x := min s.startX (toImageX s e rect)
               y := min s.startY (toImageY s e rect)
               width := |toImageX s e rect - s.startX|
               height := |toImageY s e rect - s.startY| } ∧
      (∀ sx sy cx cy : ℚ,
        dragBox sx sy cx cy = { x := min sx cx, y := min sy cy,
                                width := |cx - sx|, height := |cy - sy| } ∧
        0 ≤ (dragBox sx sy cx cy).width ∧ 0 ≤ (dragBox sx sy cx cy).height ∧
        dragBox sx sy cx cy = dragBox cx cy sx sy) := by
  have hbox : ∀ sx sy cx cy : ℚ,
      dragBox sx sy cx cy = { x := min sx cx, y := min sy cy,
                              width := |cx - sx|, height := |cy - sy| } := by
    intro sx sy cx cy
    have hx : (if cx - sx < 0 then cx else sx) = min sx cx := by
      split_ifs with h
      · exact (min_eq_right (by linarith)).symm
      · exact (min_eq_left (by linarith)).symm
    have hy : (if cy - sy < 0 then cy else sy) = min sy cy := by
      split_ifs with h
      · exact (min_eq_right (by linarith)).symm
      · exact (min_eq_left (by linarith)).symm
    simp only [dragBox, hx, hy]
  refine ⟨?_, fun sx sy cx cy => ⟨hbox sx sy cx cy, ?_, ?_, ?_⟩⟩
  · simp only [mousemove, hd, Bool.not_true, Bool.false_eq_true, if_false]
    rw [hbox]
  · rw [hbox]; exact abs_nonneg _
  · rw [hbox]; exact abs_nonneg _
  · rw [hbox, hbox, min_comm sx cx, min_comm sy cy, abs_sub_comm cx sx, abs_sub_comm cy sy]

/-- Dragging from (50, 50) to (10, 20) gives the box `{x: 10, y: 20, width: 40, height: 30}`. -/
theorem mousemove_transient_box_witness :
    dragging.currentBox = some { x := 10, y := 20, width := 40, height := 30 } := by
  have h := (mousemove_transient_box (mousedown twoImages ⟨50, 50⟩ fullRect) ⟨10, 20⟩ fullRect
    (by simp [mousedown, twoImages, initialState, clickedBox, currentBoxes, boxesOf, hitLoop])).1
  rw [dragging, h]
  norm_num [mousedown, twoImages, initialState, clickedBox, currentBoxes, boxesOf, hitLoop,
    toImageX, toImageY, fullRect]

theorem setAnnotations_same (ann : String → Option (List Box)) (key : String) (bs : List Box) :
    setAnnotations ann key bs key = some bs := by
  simp [setAnnotations]

theorem setAnnotations_other (ann : String → Option (List Box)) (key k : String) (bs : List Box)
    (h : k ≠ key) : setAnnotations ann key bs k = ann k := by
  simp [setAnnotations, h]

theorem mouseup_of_commit (s : State) (b : Rect) (h : commitBox s = some b) :
    mouseup s =
      { s with
        annotations := setAnnotations s.annotations (keyOf (fileName s))
          (boxesOf s (keyOf (fileName s)) ++
            [{ toRect := b, class_ := s.classSelect,
               className := classNameAt s.classes s.classSelect }])
        drawing := false
        currentBox := none } := by
  simp only [mouseup, h]

theorem mouseup_of_no_commit (s : State) (h : commitBox s = none) :
    mouseup s = { s with drawing := false, currentBox := none } := by
  simp only [mouseup, h]

theorem commitBox_eq_some_iff (s : State) (b : Rect) :
    commitBox s = some b ↔
      s.drawing = true ∧ s.currentBox = some b ∧ 5 < b.width ∧ 5 < b.height := by
  unfold commitBox
  cases hd : s.drawing with
  | false => simp
  | true =>
    cases hc : s.currentBox with
    | none => simp
    | some c =>
      by_cases hw : c.width > 5 ∧ c.height > 5
      · simp only [if_true, hw, and_self, Option.some.injEq, true_and]
        constructor
        · intro h; subst h; exact ⟨rfl, hw.1, hw.2⟩
        · intro h; exact h.1
      · simp only [if_true, hw, if_false, Option.some.injEq, true_and]
        constructor
        · intro h; cases h
        · intro h; obtain ⟨h1, h2, h3⟩ := h; subst h1; exact absurd ⟨h2, h3⟩ hw

/-- C5: on pointer release, when a drag is in progress and the transient box has width and
height both above 5, that box (with the selected class attached) is appended to the end of
the sequence of the displayed image; in every other case the sequence of every image is
unchanged.  In both cases the sequences of all other images are unchanged, and afterwards
there is no transient box and no drag in progress. -/
theorem mouseup_commits_iff_valid (s : State) :
    (∀ b : Rect, s.drawing = true → s.currentBox = some b → 5 < b.width → 5 < b.height →
      boxesOf (mouseup s) (keyOf (fileName s)) =
        boxesOf s (keyOf (fileName s)) ++
          [{ toRect := b, class_ := s.classSelect,
             className := classNameAt s.classes s.classSelect }]) ∧
    (¬ (s.drawing = true ∧ ∃ b : Rect, s.currentBox = some b ∧ 5 < b.width ∧ 5 < b.height) →
      (mouseup s).annotations = s.annotations) ∧
    (∀ k : String, k ≠ keyOf (fileName s) → (mouseup s).annotations k = s.annotations k) ∧
    (mouseup s).currentBox = none ∧ (mouseup s).drawing = false ∧
    (mouseup s).images = s.images ∧ (mouseup s).currentIndex = s.currentIndex := by
  refine ⟨?_, ?_, ?_, ?_⟩
  · intro b hd hc hw hh
    have hcommit : commitBox s = some b := (commitBox_eq_some_iff s b).mpr ⟨hd, hc, hw, hh⟩
    rw [mouseup_of_commit s b hcommit]
    simp only [boxesOf, setAnnotations_same, Option.getD_some]
  · intro hno
    cases hcommit : commitBox s with
    | none => rw [mouseup_of_no_commit s hcommit]
    | some b =>
      obtain ⟨hd, hc, hw, hh⟩ := (commitBox_eq_some_iff s b).mp hcommit
      exact absurd ⟨hd, b, hc, hw, hh⟩ hno
  · intro k hk
    cases hcommit : commitBox s with
    | none => rw [mouseup_of_no_commit s hcommit]
    | some b =>
      rw [mouseup_of_commit s b hcommit]
      exact setAnnotations_other _ _ _ _ hk
  · cases hcommit : commitBox s with
    | none => rw [mouseup_of_no_commit s hcommit]; exact ⟨rfl, rfl, rfl, rfl⟩
    | some b => rw [mouseup_of_commit s b hcommit]; exact ⟨rfl, rfl, rfl, rfl⟩

/-- A drag that produced width 3 and height 100 is rejected: the store is unchanged. -/
theorem mouseup_commits_iff_valid_witness :
    (mouseup { twoImages with
        drawing := true, currentBox := some { x := 0, y := 0, width := 3, height := 100 } }
      ).annotations = twoImages.annotations :=
  (mouseup_commits_iff_valid { twoImages with
      drawing := true, currentBox := some { x := 0, y := 0, width := 3, height := 100 } }).2.1
    (by
      rintro ⟨_, b, hb, hw, _⟩
      simp only [Option.some.injEq] at hb
      subst hb
      norm_num at hw)

theorem keydown_delete_eq (s : State) (key : Key) (hk : key = Key.Delete ∨ key = Key.Backspace)
    (i : Nat) (hsel : State.selectedAnnotation s = some i) (bs : List Box)
    (hbs : s.annotations (keyOf (fileName s)) = some bs) :
    keydown s key =
      { s with
        annotations := setAnnotations s.annotations (keyOf (fileName s)) (bs.eraseIdx i)
        selectedAnnotation := none } := by
  have h1 : ¬ (key = Key.ArrowRight ∧ s.currentIndex < (s.images.length : Int) - 1) := by
    rintro ⟨h, _⟩
    rcases hk with hk | hk <;> rw [hk] at h <;> cases h
  have h2 : ¬ (key = Key.ArrowLeft ∧ s.currentIndex > 0) := by
    rintro ⟨h, _⟩
    rcases hk with hk | hk <;> rw [hk] at h <;> cases h
  simp only [keydown, h1, h2, hk, if_false, if_true, hsel, hbs]

/-- C6: with box `i` of the displayed image selected (`i` below the length `n` of its
sequence), the delete or backspace key leaves a sequence of length `n - 1` in which the boxes
before `i` keep their index and the box formerly at `j > i` is at `j - 1`; the selection
becomes none and the sequences of all other images are unchanged. -/
theorem keydown_delete_shifts (s : State) (key : Key)
    (hk : key = Key.Delete ∨ key = Key.Backspace) (i : Nat)
    (hsel : State.selectedAnnotation s = some i) (hi : i < (currentBoxes s).length) :
    (currentBoxes (keydown s key)).length = (currentBoxes s).length - 1 ∧
    (∀ j, j < i → (currentBoxes (keydown s key)).get? j = (currentBoxes s).get? j) ∧
    (∀ j, i < j → (currentBoxes (keydown s key)).get? (j - 1) = (currentBoxes s).get? j) ∧
    State.selectedAnnotation (keydown s key) = none ∧
    (∀ k : String, k ≠ keyOf (fileName s) → (keydown s key).annotations k = s.annotations k) ∧
    fileName (keydown s key) = fileName s := by
  cases hbs : s.annotations (keyOf (fileName s)) with
  | none =>
    simp [currentBoxes, boxesOf, hbs] at hi
  | some bs =>
    have hcur : currentBoxes s = bs := by simp [currentBoxes, boxesOf, hbs]
    have hstep := keydown_delete_eq s key hk i hsel bs hbs
    have hfile : fileName (keydown s key) = fileName s := by rw [hstep]; rfl
    have hnew : currentBoxes (keydown s key) = bs.eraseIdx i := by
      unfold currentBoxes
      rw [hfile]
      rw [hstep]
      simp only [boxesOf, setAnnotations_same, Option.getD_some]
    rw [hcur] at hi
    rw [hnew, hcur]
    refine ⟨List.length_eraseIdx_of_lt hi, fun j hj => ?_, fun j hj => ?_, ?_, fun k hk' => ?_,
      hfile⟩
    · simp only [List.get?_eq_getElem?]
      exact List.getElem?_eraseIdx_of_lt bs i j hj
    · simp only [List.get?_eq_getElem?]
      rw [List.getElem?_eraseIdx_of_ge bs i (j - 1) (by omega)]
      congr 1
      omega
    · rw [hstep]
    · rw [hstep]
      exact setAnnotations_other _ _ _ _ hk'

/-- Deleting index 1 of `[A, B, C]` gives `[A, C]`. -/
theorem keydown_delete_shifts_witness :
    currentBoxes (keydown threeBoxes Key.Delete) = [boxAt 0 0 10 10, boxAt 40 40 10 10] ∧
      State.selectedAnnotation (keydown threeBoxes Key.Delete) = none := by
  have hcur : currentBoxes threeBoxes =
      [boxAt 0 0 10 10, boxAt 20 20 10 10, boxAt 40 40 10 10] := by
    simp [currentBoxes, boxesOf, threeBoxes, twoImages, initialState, fileName, imageAt, keyOf,
      setAnnotations]
  have h := keydown_delete_shifts threeBoxes Key.Delete (Or.inl rfl) 1 rfl
    (by rw [hcur]; decide)
  refine ⟨?_, h.2.2.2.1⟩
  have hlen := h.1
  have h0 := h.2.1 0 (by decide)
  have h2 := h.2.2.1 2 (by decide)
  rw [hcur] at hlen h0 h2
  apply List.ext_get?
  intro n
  match n with
  | 0 => rw [h0]; rfl
  | 1 => rw [h2]; rfl
  | n + 2 =>
    have hn : (currentBoxes (keydown threeBoxes Key.Delete)).length ≤ n + 2 := by
      rw [hlen]; simp
    rw [List.get?_eq_none.mpr hn]
    rfl

/-- C10: with a registry of length `n ≥ 1` and the selector at `c < n`, a wheel event that
steps forward sets the selector to `(c + 1) mod n`, one that steps backward sets it to
`(c - 1 + n) mod n`, and the result is below `n`; with an empty registry the wheel event
changes nothing. -/
theorem wheel_cycles_selector (s : State) (deltaY : ℚ) :
    (∀ c : Nat, 1 ≤ s.classes.length → s.classSelect = some c → c < s.classes.length →
      (0 ≤ deltaY → (wheel s deltaY).classSelect = some ((c + 1) % s.classes.length)) ∧
      (deltaY < 0 → ∃ v : Nat, (wheel s deltaY).classSelect = some v ∧
        (v : Int) = ((c : Int) - 1 + (s.classes.length : Int)) % (s.classes.length : Int)) ∧
      (∃ v : Nat, (wheel s deltaY).classSelect = some v ∧ v < s.classes.length)) ∧
    (s.classes.length = 0 → wheel s deltaY = s) := by
  refine ⟨fun c hn hc hlt => ?_, fun h0 => ?_⟩
  · have hne : ¬ s.classes.length = 0 := by omega
    have hfwd : 0 ≤ deltaY →
        (wheel s deltaY).classSelect = some ((c + 1) % s.classes.length) := by
      intro hd
      have hnot : ¬ deltaY < 0 := not_lt.mpr hd
      simp only [wheel, hne, if_false, hnot, hc]
      by_cases hlast : c < s.classes.length - 1
      · have hmod : (c + 1) % s.classes.length = c + 1 := Nat.mod_eq_of_lt (by omega)
        simp only [hlast, if_true, hmod]
        rw [if_pos (by omega)]
      · have hceq : c + 1 = s.classes.length := by omega
        simp only [hlast, if_false, hceq, Nat.mod_self]
        rw [if_pos (by omega)]
    have hbwd : deltaY < 0 → ∃ v : Nat, (wheel s deltaY).classSelect = some v ∧
        (v : Int) = ((c : Int) - 1 + (s.classes.length : Int)) % (s.classes.length : Int) := by
      intro hd
      simp only [wheel, hne, if_false, hd, if_true, hc]
      by_cases hpos : c > 0
      · refine ⟨c - 1, ?_, ?_⟩
        · simp only [hpos, if_true]
          rw [if_pos (by omega)]
        · have h1 : ((c : Int) - 1 + (s.classes.length : Int)) =
              ((c - 1 : Nat) : Int) + (s.classes.length : Int) := by omega
          rw [h1, Int.add_emod_self]
          exact (Int.emod_eq_of_lt (by omega) (by omega)).symm
      · refine ⟨s.classes.length - 1, ?_, ?_⟩
        · simp only [hpos, if_false]
          rw [if_pos (by omega)]
        · have hc0 : c = 0 := by omega
          subst hc0
          have h1 : ((0 : Nat) : Int) - 1 + (s.classes.length : Int) =
              ((s.classes.length - 1 : Nat) : Int) := by omega
          rw [h1]
          exact (Int.emod_eq_of_lt (by omega) (by omega)).symm
    refine ⟨hfwd, hbwd, ?_⟩
    rcases lt_or_le deltaY 0 with hd | hd
    · obtain ⟨v, hv, hveq⟩ := hbwd hd
      refine ⟨v, hv, ?_⟩
      have hlt' := Int.emod_lt_of_pos ((c : Int) - 1 + (s.classes.length : Int))
        (show (0 : Int) < (s.classes.length : Int) by omega)
      omega
    · exact ⟨_, hfwd hd, Nat.mod_lt _ (by omega)⟩
  · simp only [wheel, h0, if_true]

/-- With three classes: forward from 2 gives 0, backward from 0 gives 2. -/
theorem wheel_cycles_selector_witness :
    (wheel threeClasses 1).classSelect = some 0 ∧
      (wheel { threeClasses with classSelect := some 0 } (-1)).classSelect = some 2 := by
  refine ⟨?_, ?_⟩
  · exact ((wheel_cycles_selector threeClasses 1).1 2 (by decide) rfl (by decide)).1
      (by norm_num)
  · obtain ⟨v, hv, hveq⟩ := ((wheel_cycles_selector
      { threeClasses with classSelect := some 0 } (-1)).1 0 (by decide) rfl (by decide)).2.1
      (by norm_num)
    rw [hv]
    have h3 : ({ threeClasses with classSelect := some 0 } : State).classes.length = 3 := rfl
    rw [h3] at hveq
    have : v = 2 := by
      have : (v : Int) = 2 := by rw [hveq]; decide
      exact_mod_cast this
    rw [this]

/-! ## Export: label entries -/

theorem exportBtn_eq_some (s : State) (h1 : s.images ≠ []) (h2 : s.classes ≠ []) :
    exportBtn s = some
      { images := s.images.map ImageFile.name
        labels := s.images.map (labelEntry s)
        classesTxt := String.intercalate "\n" s.classes } := by
  have hi : ¬ s.images.length = 0 := fun h => h1 (List.length_eq_zero.mp h)
  have hc : ¬ s.classes.length = 0 := fun h => h2 (List.length_eq_zero.mp h)
  simp only [exportBtn, hi, hc, if_false]

theorem exportBtn_labels (s : State) (a : Archive) (h : exportBtn s = some a) :
    a.labels = s.images.map (labelEntry s) := by
  unfold exportBtn at h
  split_ifs at h
  simp only [Option.some.injEq] at h
  rw [← h]

theorem labelPath_eq_iff (a b : String) : labelPath a = labelPath b ↔ baseName a = baseName b := by
  constructor
  · intro h
    apply String.ext
    have hd := congrArg String.data h
    simp only [labelPath, String.data_append] at hd
    exact (List.append_left_inj _).mp hd
  · intro h
    simp only [labelPath, h]

theorem labelPaths_nodup_iff (names : List String) :
    (names.map labelPath).Nodup ↔ (names.map baseName).Nodup := by
  have hinj : Function.Injective (fun b : String => b ++ ".txt") := by
    intro x y hxy
    apply String.ext
    have hd := congrArg String.data hxy
    simp only [String.data_append] at hd
    exact (List.append_left_inj _).mp hd
  have hmap : names.map labelPath = (names.map baseName).map (fun b : String => b ++ ".txt") := by
    rw [List.map_map]
    rfl
  rw [hmap]
  exact List.nodup_map_iff hinj

/-- C7 as stated fails: the names `a.jpg` and `a.png` are distinct, yet export gives both
images the label file name `a.txt`. -/
theorem distinct_names_share_label_path :
    (sameBase.images.map ImageFile.name).Nodup ∧
      ∃ a : Archive, exportBtn sameBase = some a ∧
        a.labels.map LabelEntry.path = ["a.txt", "a.txt"] ∧
        ¬ (a.labels.map LabelEntry.path).Nodup := by
  refine ⟨by decide, _, exportBtn_eq_some sameBase (by simp [sameBase])
    (by simp [sameBase, initialState]), ?_, ?_⟩
  · decide
  · decide

/-- C7, amended: export writes one label entry per image, and the label file names are
pairwise distinct exactly when the base names of the images (name with the final extension
stripped) are pairwise distinct. -/
theorem label_paths_distinct_iff_base_names (s : State) (a : Archive)
    (h : exportBtn s = some a) :
    a.labels.length = s.images.length ∧
      ((a.labels.map LabelEntry.path).Nodup ↔
        (s.images.map (fun f => baseName f.name)).Nodup) := by
  rw [exportBtn_labels s a h]
  refine ⟨by simp, ?_⟩
  have hp : (s.images.map (labelEntry s)).map LabelEntry.path =
      (s.images.map ImageFile.name).map labelPath := by
    simp only [List.map_map]
    rfl
  have hb : s.images.map (fun f => baseName f.name) =
      (s.images.map ImageFile.name).map baseName := by
    simp only [List.map_map]
    rfl
  rw [hp, hb]
  exact labelPaths_nodup_iff _

/-- The two images of `twoImages` have distinct base names, so distinct label file names. -/
theorem label_paths_distinct_iff_base_names_witness :
    ∃ a : Archive, exportBtn twoImages = some a ∧ (a.labels.map LabelEntry.path).Nodup := by
  have he := exportBtn_eq_some twoImages (by simp [twoImages]) (by simp [twoImages])
  exact ⟨_, he, (label_paths_distinct_iff_base_names twoImages _ he).2.mpr (by decide)⟩

/-! ## Normalized values -/

theorem keydown_arrowRight (s : State) (h : s.currentIndex < (s.images.length : Int) - 1) :
    keydown s Key.ArrowRight = loadImage s (s.currentIndex + 1) := by
  simp only [keydown, h, and_self, if_true]

/-- C1 fails on the code: after a box (500, 500, 200, 200) is drawn on the 1000 × 1000 image
`large.png` and the 100 × 100 image `small.png` is displayed, export writes for that box the
values 6, 6, 2, 2 (divided by the canvas size 100 × 100), not 0.6, 0.6, 0.2, 0.2, although
the box lies fully inside its own image. -/
theorem export_divides_by_canvas_size :
    boxesOf drawnThenMoved "large.png" = [boxAt 500 500 200 200] ∧
      insideImage (boxAt 500 500 200 200) 1000 1000 ∧
      drawnThenMoved.images = [⟨"large.png", 1000, 1000⟩, ⟨"small.png", 100, 100⟩] ∧
      drawnThenMoved.canvasWidth = 100 ∧ drawnThenMoved.canvasHeight = 100 ∧
      exportBtn drawnThenMoved = some
        { images := ["large.png", "small.png"]
          labels := [⟨"large.txt", [⟨some 0, ⟨6, 6, 2, 2⟩⟩]⟩, ⟨"small.txt", []⟩]
          classesTxt := "cat" } ∧
      yoloValues (boxAt 500 500 200 200) 1000 1000 = ⟨3 / 5, 3 / 5, 1 / 5, 1 / 5⟩ := by
  have hdown : mousedown twoImages ⟨500, 500⟩ fullRect =
      { twoImages with drawing := true, startX := 500, startY := 500 } := by
    simp only [mousedown, twoImages, initialState, clickedBox, currentBoxes, boxesOf, hitLoop,
      toImageX, toImageY, fullRect, fileName, imageAt, keyOf]
    norm_num
  have hmove : mousemove { twoImages with drawing := true, startX := 500, startY := 500 }
        ⟨700, 700⟩ fullRect =
      { twoImages with drawing := true, startX := 500, startY := 500,
                       currentBox := some ⟨500, 500, 200, 200⟩ } := by
    simp only [mousemove, twoImages, initialState, toImageX, toImageY, fullRect, dragBox]
    norm_num
  have hcommit :
      commitBox { twoImages with drawing := true, startX := 500, startY := 500,
                                 currentBox := some ⟨500, 500, 200, 200⟩ } =
        some ⟨500, 500, 200, 200⟩ := by
    simp only [commitBox]
    norm_num
  have hup :
      mouseup { twoImages with drawing := true, startX := 500, startY := 500,
                               currentBox := some ⟨500, 500, 200, 200⟩ } =
      { twoImages with
        startX := 500
        startY := 500
        annotations := setAnnotations (fun _ => none) "large.png" [boxAt 500 500 200 200] } := by
    rw [mouseup_of_commit _ _ hcommit]
    simp [twoImages, initialState, fileName, imageAt, keyOf, boxesOf, classNameAt, boxAt]
  have hkey : drawnThenMoved =
      { twoImages with
        startX := 500
        startY := 500
        currentIndex := 1
        canvasWidth := 100
        canvasHeight := 100
        annotations := setAnnotations (fun _ => none) "large.png" [boxAt 500 500 200 200] } := by
    rw [drawnThenMoved, hdown, hmove, hup, keydown_arrowRight _ (by decide)]
    simp [loadImage, twoImages, initialState, imageAt]
  refine ⟨?_, ?_, ?_, ?_, ?_, ?_, ?_⟩
  · rw [hkey]; simp [boxesOf, setAnnotations]
  · simp only [insideImage, boxAt]; norm_num
  · rw [hkey]; rfl
  · rw [hkey]
  · rw [hkey]
  · rw [hkey]
    rw [exportBtn_eq_some _ (by simp [twoImages]) (by simp [twoImages])]
    simp only [twoImages, initialState, List.map, labelEntry, boxesOf, setAnnotations,
      yoloLine, yoloValues, boxAt]
    have h1 : labelPath "large.png" = "large.txt" := by decide
    have h2 : labelPath "small.png" = "small.txt" := by decide
    rw [h1, h2]
    norm_num
    decide
  · simp only [yoloValues, boxAt]; norm_num

/-! ## Round trip at three decimals -/

theorem imageAt_eq_some (imgs : List ImageFile) (i : Int) (file : ImageFile)
    (h : imageAt imgs i = some file) : 0 ≤ i ∧ i < (imgs.length : Int) := by
  unfold imageAt at h
  split_ifs at h with h0
  refine ⟨h0, ?_⟩
  have hlt := (List.get?_eq_some.mp h).1
  omega

theorem imageAt_of_lt (imgs : List ImageFile) (i : Int) (h0 : 0 ≤ i)
    (hlt : i < (imgs.length : Int)) : ∃ file, imageAt imgs i = some file := by
  have hn : i.toNat < imgs.length := by omega
  refine ⟨imgs.get ⟨i.toNat, hn⟩, ?_⟩
  simp only [imageAt, h0, if_true]
  exact List.get?_eq_get hn

theorem loadImage_eq (s : State) (index : Int) (file : ImageFile)
    (h : imageAt s.images index = some file) :
    loadImage s index =
      { s with currentIndex := index, selectedAnnotation := none,
               canvasWidth := file.width, canvasHeight := file.height } := by
  obtain ⟨h0, hlt⟩ := imageAt_eq_some s.images index file h
  have hg : ¬ (index < 0 ∨ index ≥ (s.images.length : Int)) := by omega
  simp only [loadImage, hg, if_false, h]

theorem loadImage_out_of_range (s : State) (index : Int)
    (h : index < 0 ∨ index ≥ (s.images.length : Int)) : loadImage s index = s := by
  simp only [loadImage, h, if_true]

theorem keydown_arrowLeft (s : State) (h : s.currentIndex > 0) :
    keydown s Key.ArrowLeft = loadImage s (s.currentIndex - 1) := by
  have h1 : ¬ (Key.ArrowLeft = Key.ArrowRight ∧ s.currentIndex < (s.images.length : Int) - 1) := by
    rintro ⟨h, _⟩
    cases h
  simp only [keydown, h1, if_false, h, and_self, if_true]

theorem keydown_arrowRight_at_end (s : State) (h : ¬ s.currentIndex < (s.images.length : Int) - 1) :
    keydown s Key.ArrowRight = s := by
  have h2 : ¬ (Key.ArrowRight = Key.ArrowLeft ∧ s.currentIndex > 0) := by
    rintro ⟨h, _⟩
    cases h
  have h3 : ¬ (Key.ArrowRight = Key.Delete ∨ Key.ArrowRight = Key.Backspace) := by
    rintro (h | h) <;> cases h
  simp only [keydown, h, and_false, if_false, h2, h3]

theorem keydown_arrowLeft_at_start (s : State) (h : ¬ s.currentIndex > 0) :
    keydown s Key.ArrowLeft = s := by
  have h1 : ¬ (Key.ArrowLeft = Key.ArrowRight ∧ s.currentIndex < (s.images.length : Int) - 1) := by
    rintro ⟨h, _⟩
    cases h
  have h3 : ¬ (Key.ArrowLeft = Key.Delete ∨ Key.ArrowLeft = Key.Backspace) := by
    rintro (h | h) <;> cases h
  simp only [keydown, h1, if_false, h, and_false, h3]

/-- C11: with a non-empty image list of length `n` and the current index `c` in `[0, n - 1]`,
the right arrow key sets the index to `min(c + 1, n - 1)` and the left arrow key sets it to
`max(c - 1, 0)`; the list is unchanged and the index stays in `[0, n - 1]`, without
wraparound. -/
theorem keydown_arrows_clamp (s : State) (c : Nat) (hn : s.images ≠ [])
    (hc : s.currentIndex = (c : Int)) (hlt : c < s.images.length) :
    (keydown s Key.ArrowRight).currentIndex = min ((c : Int) + 1) ((s.images.length : Int) - 1) ∧
    (keydown s Key.ArrowLeft).currentIndex = max ((c : Int) - 1) 0 ∧
    (keydown s Key.ArrowRight).images = s.images ∧
    (keydown s Key.ArrowLeft).images = s.images ∧
    (c = 0 → (keydown s Key.ArrowLeft).currentIndex = 0) ∧
    (c = s.images.length - 1 →
      (keydown s Key.ArrowRight).currentIndex = ((s.images.length - 1 : Nat) : Int)) ∧
    0 ≤ (keydown s Key.ArrowRight).currentIndex ∧
    (keydown s Key.ArrowRight).currentIndex < (s.images.length : Int) ∧
    0 ≤ (keydown s Key.ArrowLeft).currentIndex ∧
    (keydown s Key.ArrowLeft).currentIndex < (s.images.length : Int) := by
  have hpos : 0 < s.images.length := List.length_pos.mpr hn
  have hright : (keydown s Key.ArrowRight).currentIndex =
        min ((c : Int) + 1) ((s.images.length : Int) - 1) ∧
      (keydown s Key.ArrowRight).images = s.images := by
    by_cases h : s.currentIndex < (s.images.length : Int) - 1
    · obtain ⟨file, hfile⟩ := imageAt_of_lt s.images (s.currentIndex + 1) (by omega) (by omega)
      rw [keydown_arrowRight s h, loadImage_eq s _ file hfile]
      refine ⟨?_, rfl⟩
      show s.currentIndex + 1 = _
      rw [hc] at h ⊢
      exact (min_eq_left (by omega)).symm
    · rw [keydown_arrowRight_at_end s h]
      refine ⟨?_, rfl⟩
      rw [hc] at h ⊢
      rw [min_eq_right (by omega)]
      omega
  have hleft : (keydown s Key.ArrowLeft).currentIndex = max ((c : Int) - 1) 0 ∧
      (keydown s Key.ArrowLeft).images = s.images := by
    by_cases h : s.currentIndex > 0
    · obtain ⟨file, hfile⟩ := imageAt_of_lt s.images (s.currentIndex - 1) (by omega) (by omega)
      rw [keydown_arrowLeft s h, loadImage_eq s _ file hfile]
      refine ⟨?_, rfl⟩
      show s.currentIndex - 1 = _
      rw [hc] at h ⊢
      exact (max_eq_left (by omega)).symm
    · rw [keydown_arrowLeft_at_start s h]
      refine ⟨?_, rfl⟩
      rw [hc] at h ⊢
      rw [max_eq_right (by omega)]
      omega
  refine ⟨hright.1, hleft.1, hright.2, hleft.2, ?_, ?_, ?_, ?_, ?_, ?_⟩
  · intro h0
    rw [hleft.1, h0]
    rfl
  · intro hlast
    rw [hright.1, min_eq_right (by omega)]
    omega
  · rw [hright.1]
    exact le_min (by omega) (by omega)
  · rw [hright.1]
    exact lt_of_le_of_lt (min_le_right _ _) (by omega)
  · rw [hleft.1]
    exact le_max_right _ _
  · rw [hleft.1]
    exact max_lt (by omega) (by omega)

/-- With two images: left at index 0 stays at 0, right at index 0 goes to 1. -/
theorem keydown_arrows_clamp_witness :
    (keydown twoImages Key.ArrowLeft).currentIndex = 0 ∧
      (keydown twoImages Key.ArrowRight).currentIndex = 1 := by
  have h := keydown_arrows_clamp twoImages 0 (by simp [twoImages]) rfl (by decide)
  refine ⟨h.2.2.2.2.1 rfl, ?_⟩
  rw [h.1]
  decide

/-- C12: a `loadImage` with an index inside the image list (the arrow keys and a click in the
image list both go through it) sets the selection to none and leaves the box sequence stored
under every name unchanged; the boxes drawn afterwards are those stored under the name of the
new image, none of them drawn as selected. -/
theorem loadImage_clears_selection (s : State) (index : Int) (file : ImageFile)
    (h : imageAt s.images index = some file) :
    State.selectedAnnotation (loadImage s index) = none ∧
    (loadImage s index).annotations = s.annotations ∧
    (loadImage s index).currentIndex = index ∧
    (loadImage s index).images = s.images ∧
    (drawCanvas (loadImage s index)).boxes = (boxesOf s file.name).map (fun b => (b, false)) ∧
    (s.currentIndex < (s.images.length : Int) - 1 →
      keydown s Key.ArrowRight = loadImage s (s.currentIndex + 1)) ∧
    (s.currentIndex > 0 → keydown s Key.ArrowLeft = loadImage s (s.currentIndex - 1)) ∧
    (∀ i : Nat, step s (Event.imageClick i) = loadImage s (i : Int)) := by
  rw [loadImage_eq s index file h]
  refine ⟨rfl, rfl, rfl, rfl, ?_, keydown_arrowRight s, keydown_arrowLeft s, fun i => rfl⟩
  have hcur : currentBoxes
      { s with currentIndex := index, selectedAnnotation := none,
               canvasWidth := file.width, canvasHeight := file.height } =
      boxesOf s file.name := by
    simp only [currentBoxes, fileName, h, Option.map_some', keyOf, Option.getD_some, boxesOf]
  simp only [drawCanvas, hcur]
  have hfun : (fun p : Nat × Box => (p.2, decide (some p.1 = (none : Option Nat)))) =
      (fun b : Box => (b, false)) ∘ Prod.snd := by
    funext p
    simp
  rw [hfun, ← List.map_map, List.enum_map_snd]

/-- Loading the second image of `threeBoxes`, whose second box is selected, clears the
selection. -/
theorem loadImage_clears_selection_witness :
    State.selectedAnnotation threeBoxes = some 1 ∧
      State.selectedAnnotation (loadImage threeBoxes 1) = none :=
  ⟨rfl, (loadImage_clears_selection threeBoxes 1 ⟨"small.png", 100, 100⟩ (by decide)).1⟩

/-! ## Load -/

theorem drop_of_no_image (s : State) (files : List ImageFile)
    (localeCompare : String → String → Int)
    (h : files.filter (fun f => isImageName f.name) = []) :
    drop s files localeCompare = { s with images := [] } := by
  simp only [drop, h, List.mergeSort_nil, List.length_nil, gt_iff_lt, lt_self_iff_false,
    if_false]

theorem drop_of_some_image (s : State) (files : List ImageFile)
    (localeCompare : String → String → Int)
    (h : files.filter (fun f => isImageName f.name) ≠ []) :
    (drop s files localeCompare).currentIndex = 0 ∧
      0 < (drop s files localeCompare).images.length ∧
      State.selectedAnnotation (drop s files localeCompare) = none ∧
      (drop s files localeCompare).annotations = s.annotations := by
  have hlen : 0 < ((files.filter (fun f => isImageName f.name)).mergeSort
      (fun a b => decide (localeCompare a.name b.name ≤ 0))).length := by
    rw [List.length_mergeSort]
    exact List.length_pos.mpr h
  obtain ⟨file, hfile⟩ := imageAt_of_lt
    ((files.filter (fun f => isImageName f.name)).mergeSort
      (fun a b => decide (localeCompare a.name b.name ≤ 0))) 0 (le_refl 0)
    (by exact_mod_cast hlen)
  simp only [drop, hlen, gt_iff_lt, if_true]
  rw [loadImage_eq _ 0 file hfile]
  exact ⟨rfl, hlen, rfl, rfl⟩

/-- C13 fails on the code: with the image `a.png` displayed (index 0), the drop of a folder
that holds only `notes.txt` replaces the image list by the empty list and leaves the current
index at 0, not at -1. -/
theorem drop_without_images_keeps_index :
    thirdWidth.images = [⟨"a.png", 300, 150⟩] ∧ thirdWidth.currentIndex = 0 ∧
      (drop thirdWidth [⟨"notes.txt", 0, 0⟩] codePointCompare).images = [] ∧
      (drop thirdWidth [⟨"notes.txt", 0, 0⟩] codePointCompare).currentIndex = 0 ∧
      (drop thirdWidth [⟨"notes.txt", 0, 0⟩] codePointCompare).currentIndex ≠ -1 := by
  have h := drop_of_no_image thirdWidth [⟨"notes.txt", 0, 0⟩] codePointCompare (by decide)
  rw [h]
  exact ⟨rfl, rfl, rfl, rfl, by decide⟩

/-! ## Navigation during a drag -/

theorem dragOnLarge_eq :
    mousemove (mousedown twoImages ⟨500, 500⟩ fullRect) ⟨700, 700⟩ fullRect =
      { twoImages with drawing := true, startX := 500, startY := 500,
                       currentBox := some ⟨500, 500, 200, 200⟩ } := by
  have hdown : mousedown twoImages ⟨500, 500⟩ fullRect =
      { twoImages with drawing := true, startX := 500, startY := 500 } := by
    simp only [mousedown, twoImages, initialState, clickedBox, currentBoxes, boxesOf, hitLoop,
      toImageX, toImageY, fullRect, fileName, imageAt, keyOf]
    norm_num
  rw [hdown]
  simp only [mousemove, twoImages, initialState, toImageX, toImageY, fullRect, dragBox]
  norm_num

/-- C14 as stated fails: a drag from (500, 500) to (700, 700) is started and moved on
`large.png`, the right arrow key displays `small.png`, and the pointer release then appends
the box (500, 500, 200, 200) to the sequence of `small.png`, which was empty. -/
theorem release_after_navigation_adds_box :
    fileName (mousemove (mousedown twoImages ⟨500, 500⟩ fullRect) ⟨700, 700⟩ fullRect) =
        some "large.png" ∧
      fileName (keydown
        (mousemove (mousedown twoImages ⟨500, 500⟩ fullRect) ⟨700, 700⟩ fullRect)
        Key.ArrowRight) = some "small.png" ∧
      boxesOf twoImages "small.png" = [] ∧
      boxesOf movedThenReleased "small.png" = [boxAt 500 500 200 200] := by
  have hkey : keydown
      (mousemove (mousedown twoImages ⟨500, 500⟩ fullRect) ⟨700, 700⟩ fullRect)
      Key.ArrowRight =
      { twoImages with
        drawing := true
        startX := 500
        startY := 500
        currentBox := some ⟨500, 500, 200, 200⟩
        currentIndex := 1
        canvasWidth := 100
        canvasHeight := 100 } := by
    rw [dragOnLarge_eq, keydown_arrowRight _ (by decide)]
    simp [loadImage, twoImages, initialState, imageAt]
  refine ⟨?_, ?_, rfl, ?_⟩
  · rw [dragOnLarge_eq]
    decide
  · rw [hkey]
    decide
  · have hcommit : commitBox
        { twoImages with
          drawing := true
          startX := 500
          startY := 500
          currentBox := some ⟨500, 500, 200, 200⟩
          currentIndex := 1
          canvasWidth := 100
          canvasHeight := 100 } = some ⟨500, 500, 200, 200⟩ := by
      simp only [commitBox]
      norm_num
    rw [movedThenReleased, hkey, mouseup_of_commit _ _ hcommit]
    simp [twoImages, initialState, fileName, imageAt, keyOf, boxesOf, classNameAt, boxAt,
      setAnnotations]

/-- C14, amended: a navigation to another image `B` while a drag is in progress does not
discard the unfinished transient box: the drag flag, the transient box and the store are
carried over unchanged, and the pointer release that follows appends the transient box, when
its width and height both exceed 5, to the sequence of `B`, the image displayed at the
release; the sequence of every other image is unchanged, and only the release leaves no
transient box and no drag in progress. -/
theorem navigation_keeps_drag (s : State) (index : Int) (file : ImageFile)
    (h : imageAt s.images index = some file) :
    (loadImage s index).drawing = s.drawing ∧
    (loadImage s index).currentBox = s.currentBox ∧
    (loadImage s index).annotations = s.annotations ∧
    (∀ b : Rect, s.drawing = true → s.currentBox = some b → 5 < b.width → 5 < b.height →
      boxesOf (mouseup (loadImage s index)) file.name =
        boxesOf s file.name ++
          [{ toRect := b, class_ := s.classSelect,
             className := classNameAt s.classes s.classSelect }]) ∧
    (∀ k : String, k ≠ file.name → (mouseup (loadImage s index)).annotations k = s.annotations k) ∧
    (mouseup (loadImage s index)).currentBox = none ∧
    (mouseup (loadImage s index)).drawing = false := by
  have hload := loadImage_eq s index file h
  have hkey : keyOf (fileName (loadImage s index)) = file.name := by
    rw [hload]
    simp only [fileName, h, Option.map_some', keyOf, Option.getD_some]
  have hann : (loadImage s index).annotations = s.annotations := by rw [hload]
  have htail : (mouseup (loadImage s index)).currentBox = none ∧
      (mouseup (loadImage s index)).drawing = false := by
    cases hcommit : commitBox (loadImage s index) with
    | none => rw [mouseup_of_no_commit _ hcommit]; exact ⟨rfl, rfl⟩
    | some b => rw [mouseup_of_commit _ b hcommit]; exact ⟨rfl, rfl⟩
  refine ⟨by rw [hload], by rw [hload], hann, ?_, ?_, htail.1, htail.2⟩
  · intro b hd hc hw hh
    have hcommit : commitBox (loadImage s index) = some b :=
      (commitBox_eq_some_iff _ b).mpr ⟨by rw [hload]; exact hd, by rw [hload]; exact hc, hw, hh⟩
    rw [mouseup_of_commit _ b hcommit, hkey]
    simp only [boxesOf, setAnnotations_same, Option.getD_some, hann]
    rw [hload]
  · intro k hk
    cases hcommit : commitBox (loadImage s index) with
    | none => rw [mouseup_of_no_commit _ hcommit, ← hann]
    | some b =>
      rw [mouseup_of_commit _ b hcommit, hkey]
      show setAnnotations (loadImage s index).annotations file.name _ k = s.annotations k
      rw [setAnnotations_other _ _ _ _ hk, hann]

/-- In the session `twoImages` with a drag in progress, a navigation to the second image
followed by the release appends the transient box to the sequence of the second image. -/
theorem navigation_keeps_drag_witness :
    boxesOf (mouseup (loadImage
        { twoImages with drawing := true, currentBox := some ⟨500, 500, 200, 200⟩ } 1))
        "small.png" =
      boxesOf { twoImages with drawing := true, currentBox := some ⟨500, 500, 200, 200⟩ }
        "small.png" ++ [boxAt 500 500 200 200] :=
  (navigation_keeps_drag
    { twoImages with drawing := true, currentBox := some ⟨500, 500, 200, 200⟩ } 1
    ⟨"small.png", 100, 100⟩ (by decide)).2.2.2.1 ⟨500, 500, 200, 200⟩ rfl rfl
    (by norm_num) (by norm_num)

/-! ## Coordinate mapping -/

theorem splitOnP_not_mem {α : Type} (p : α → Bool) (xs : List α) :
    ∀ l ∈ xs.splitOnP p, ∀ x ∈ l, p x = false := by
  induction xs with
  | nil =>
    intro l hl x hx
    rw [List.splitOnP_nil] at hl
    rw [List.mem_singleton.mp hl] at hx
    cases hx
  | cons a as ih =>
    intro l hl x hx
    rw [List.splitOnP_cons] at hl
    by_cases hp : p a = true
    · rw [if_pos hp] at hl
      rcases List.mem_cons.mp hl with h | h
      · rw [h] at hx; cases hx
      · exact ih l h x hx
    · rw [if_neg hp] at hl
      cases hs : as.splitOnP p with
      | nil => exact absurd hs (List.splitOnP_ne_nil p as)
      | cons hd tl =>
        rw [hs] at hl ih
        simp only [List.modifyHead_cons] at hl
        rcases List.mem_cons.mp hl with h | h
        · rw [h] at hx
          rcases List.mem_cons.mp hx with hxa | hxh
          · rw [hxa]; simpa using hp
          · exact ih hd (List.mem_cons_self _ _) x hxh
        · exact ih l (List.mem_cons_of_mem _ h) x hx

theorem splitOn_newline_not_mem (cs : List Char) : ∀ l ∈ cs.splitOn '\n', '\n' ∉ l := by
  intro l hl hmem
  have h := splitOnP_not_mem (fun c : Char => c == '\n') cs l hl '\n' hmem
  simp at h

theorem rdropWhile_append_rtakeWhile {α : Type} (p : α → Bool) (l : List α) :
    l.rdropWhile p ++ l.rtakeWhile p = l := by
  unfold List.rdropWhile List.rtakeWhile
  rw [← List.reverse_append, List.takeWhile_append_dropWhile, List.reverse_reverse]

theorem trim_decompose (line : List Char) :
    ∃ pre post, line = pre ++ trim line ++ post ∧
      (∀ c ∈ pre, isWhiteSpace c = true) ∧ (∀ c ∈ post, isWhiteSpace c = true) := by
  refine ⟨line.takeWhile isWhiteSpace, (line.dropWhile isWhiteSpace).rtakeWhile isWhiteSpace,
    ?_, fun c hc => List.mem_takeWhile_imp hc, fun c hc => List.mem_rtakeWhile_imp hc⟩
  rw [trim, List.append_assoc, rdropWhile_append_rtakeWhile, List.takeWhile_append_dropWhile]

theorem trim_head (line : List Char) (c : Char) (h : (trim line).head? = some c) :
    isWhiteSpace c = false := by
  have hpre : trim line <+: line.dropWhile isWhiteSpace := List.rdropWhile_prefix _ _
  obtain ⟨t, ht⟩ := hpre
  cases htl : trim line with
  | nil => rw [htl] at h; cases h
  | cons a rest =>
    rw [htl] at h ht
    simp only [List.head?_cons, Option.some.injEq] at h
    subst h
    have hne : line.dropWhile isWhiteSpace ≠ [] := by
      rw [← ht]; exact List.cons_ne_nil _ _
    have hnot := List.head_dropWhile_not isWhiteSpace line hne
    have hhead : (line.dropWhile isWhiteSpace).head hne = a := by
      simp only [← ht, List.cons_append, List.head_cons]
    rw [hhead] at hnot
    exact hnot

theorem trim_last (line : List Char) (c : Char) (h : (trim line).getLast? = some c) :
    isWhiteSpace c = false := by
  have hne : trim line ≠ [] := by
    intro hnil
    rw [hnil] at h
    cases h
  have hnot : ¬ isWhiteSpace ((trim line).getLast hne) = true := List.rdropWhile_last_not _ _ hne
  rw [List.getLast?_eq_getLast _ hne, Option.some.injEq] at h
  rw [h] at hnot
  simpa using hnot

theorem trim_eq_self (l : List Char) (h1 : ∀ c, l.head? = some c → isWhiteSpace c = false)
    (h2 : ∀ c, l.getLast? = some c → isWhiteSpace c = false) : trim l = l := by
  have hd : l.dropWhile isWhiteSpace = l := by
    cases l with
    | nil => rfl
    | cons a rest =>
      have ha := h1 a rfl
      simp [List.dropWhile_cons, ha]
  rw [trim, hd, List.rdropWhile_eq_self_iff]
  intro hne
  have := h2 (l.getLast hne) (List.getLast?_eq_getLast _ hne)
  simp [this]

theorem trim_trim (line : List Char) : trim (trim line) = trim line :=
  trim_eq_self _ (trim_head line) (trim_last line)

theorem trim_not_mem_newline (line : List Char) (h : '\n' ∉ line) : '\n' ∉ trim line := by
  obtain ⟨pre, post, hl, _, _⟩ := trim_decompose line
  intro hmem
  apply h
  rw [hl]
  exact List.mem_append_left _ (List.mem_append_right _ hmem)

theorem parseClasses_data (text : String) :
    (parseClasses text).map String.data =
      ((text.data.splitOn '\n').map trim).filter (fun line => decide (line.length > 0)) := by
  simp only [parseClasses, List.map_map]
  have : (String.data ∘ String.mk) = (id : List Char → List Char) := by
    funext l
    rfl
  rw [this, List.map_id]

theorem mem_parseClasses (text : String) (name : String) (h : name ∈ parseClasses text) :
    name.data ≠ [] ∧ ∃ line ∈ text.data.splitOn '\n', name.data = trim line := by
  have hmem : name.data ∈ (parseClasses text).map String.data := List.mem_map_of_mem _ h
  rw [parseClasses_data] at hmem
  obtain ⟨hm, hlen⟩ := List.mem_filter.mp hmem
  obtain ⟨line, hline, htrim⟩ := List.mem_map.mp hm
  refine ⟨?_, line, hline, htrim.symm⟩
  intro hnil
  rw [hnil] at hlen
  simp at hlen

/-- C15: the class list edit sets the registry to the lines of the text (the text split on
newline), each trimmed of surrounding white space, with the lines that are empty after
trimming removed, in input order and without removing duplicates; every resulting name is
non-empty and neither starts nor ends with white space, and the registry is empty when every
line trims to the empty string. -/
theorem classesInput_sets_registry (s : State) (text : String) :
    (classesInput s text).classes = parseClasses text ∧
    ['\n'].intercalate (text.data.splitOn '\n') = text.data ∧
    (∀ line ∈ text.data.splitOn '\n', '\n' ∉ line) ∧
    (∀ line : List Char, ∃ pre post, line = pre ++ trim line ++ post ∧
      (∀ c ∈ pre, isWhiteSpace c = true) ∧ (∀ c ∈ post, isWhiteSpace c = true) ∧
      (∀ c, (trim line).head? = some c → isWhiteSpace c = false) ∧
      (∀ c, (trim line).getLast? = some c → isWhiteSpace c = false)) ∧
    (parseClasses text).map String.data =
      ((text.data.splitOn '\n').map trim).filter (fun line => decide (line ≠ [])) ∧
    (∀ name ∈ (classesInput s text).classes, name ≠ "" ∧
      (∀ c, name.data.head? = some c → isWhiteSpace c = false) ∧
      (∀ c, name.data.getLast? = some c → isWhiteSpace c = false)) ∧
    ((∀ line ∈ text.data.splitOn '\n', trim line = []) → (classesInput s text).classes = []) := by
  refine ⟨rfl, List.intercalate_splitOn text.data '\n', splitOn_newline_not_mem text.data,
    ?_, ?_, ?_, ?_⟩
  · intro line
    obtain ⟨pre, post, h1, h2, h3⟩ := trim_decompose line
    exact ⟨pre, post, h1, h2, h3, trim_head line, trim_last line⟩
  · rw [parseClasses_data]
    congr 1
    funext line
    cases line <;> simp
  · intro name hname
    obtain ⟨hne, line, _, htrim⟩ := mem_parseClasses text name hname
    refine ⟨?_, ?_, ?_⟩
    · intro hempty
      apply hne
      rw [hempty]
    · rw [htrim]; exact trim_head line
    · rw [htrim]; exact trim_last line
  · intro hall
    show parseClasses text = []
    apply List.map_eq_nil_iff.mp
    rw [parseClasses_data]
    apply List.filter_eq_nil_iff.mpr
    intro l hl
    obtain ⟨line, hline, htrim⟩ := List.mem_map.mp hl
    rw [← htrim, hall line hline]
    simp

/-- The text with a duplicate, a padded line and a blank line gives `cat`, `dog`, `cat`. -/
theorem classesInput_sets_registry_witness :
    (classesInput initialState "cat\n  dog \n\ncat").classes = ["cat", "dog", "cat"] := by
  rw [(classesInput_sets_registry initialState "cat\n  dog \n\ncat").1]
  decide

/-! ## Class file round trip -/

theorem intercalate_go_data (sep : String) (names : List String) (acc : String) :
    (String.intercalate.go acc sep names).data =
      acc.data ++ (names.map (fun a => sep.data ++ a.data)).flatten := by
  induction names generalizing acc with
  | nil => simp [String.intercalate.go]
  | cons a rest ih =>
    rw [String.intercalate.go, ih]
    simp [String.data_append, List.append_assoc]

theorem list_intercalate_cons {α : Type} (sep : List α) (a : List α) (rest : List (List α)) :
    sep.intercalate (a :: rest) = a ++ (rest.map (fun b => sep ++ b)).flatten := by
  induction rest generalizing a with
  | nil => simp [List.intercalate]
  | cons b rest ih =>
    have hstep : sep.intercalate (a :: b :: rest) = a ++ (sep ++ sep.intercalate (b :: rest)) := by
      simp [List.intercalate]
    rw [hstep, ih b]
    simp [List.append_assoc]

theorem intercalate_data (sep : String) (names : List String) :
    (String.intercalate sep names).data = sep.data.intercalate (names.map String.data) := by
  cases names with
  | nil => rfl
  | cons a rest =>
    rw [String.intercalate, intercalate_go_data, List.map_cons, list_intercalate_cons,
      List.map_map]
    rfl

theorem parseClasses_intercalate (text : String) :
    parseClasses (String.intercalate "\n" (parseClasses text)) = parseClasses text := by
  have hdata : ∀ l ∈ (parseClasses text).map String.data,
      l ≠ [] ∧ trim l = l ∧ '\n' ∉ l := by
    intro l hl
    obtain ⟨name, hname, hnl⟩ := List.mem_map.mp hl
    obtain ⟨hne, line, hline, htrim⟩ := mem_parseClasses text name hname
    rw [← hnl]
    refine ⟨hne, ?_, ?_⟩
    · rw [htrim]; exact trim_trim line
    · rw [htrim]; exact trim_not_mem_newline line (splitOn_newline_not_mem text.data line hline)
  cases hR : parseClasses text with
  | nil => decide
  | cons r rest =>
    rw [← hR]
    have hne : (parseClasses text).map String.data ≠ [] := by
      rw [hR]; simp
    have hsplit : (String.intercalate "\n" (parseClasses text)).data.splitOn '\n' =
        (parseClasses text).map String.data := by
      rw [intercalate_data]
      exact List.splitOn_intercalate _ '\n' (fun l hl => (hdata l hl).2.2) hne
    have htrim : ((parseClasses text).map String.data).map trim =
        (parseClasses text).map String.data := by
      conv_rhs => rw [← List.map_id ((parseClasses text).map String.data)]
      exact List.map_congr_left (fun l hl => (hdata l hl).2.1)
    have hfilter : ((parseClasses text).map String.data).filter
        (fun line => decide (line.length > 0)) = (parseClasses text).map String.data := by
      apply List.filter_eq_self.mpr
      intro l hl
      have := (hdata l hl).1
      simp only [gt_iff_lt, decide_eq_true_eq]
      exact List.length_pos.mpr this
    have hback : ((parseClasses text).map String.data).map String.mk = parseClasses text := by
      rw [List.map_map]
      conv_rhs => rw [← List.map_id (parseClasses text)]
      exact List.map_congr_left (fun _ _ => rfl)
    conv_lhs => rw [parseClasses, hsplit, htrim, hfilter, hback]

/-- C20: the class file round-trips through the class list edit: for the registry `R` that
the edit produces from any text, the newline join of the names of `R` (the content export
writes to `classes.txt`), fed back to the edit, yields exactly `R`, also when `R` is empty. -/
theorem classes_file_round_trip (s t : State) (text : String) :
    (classesInput t (String.intercalate "\n" (classesInput s text).classes)).classes =
        (classesInput s text).classes ∧
      (∀ a : Archive, exportBtn (classesInput s text) = some a →
        a.classesTxt = String.intercalate "\n" (classesInput s text).classes ∧
        (classesInput t a.classesTxt).classes = (classesInput s text).classes) ∧
      ((classesInput s text).classes = [] →
        String.intercalate "\n" (classesInput s text).classes = "" ∧
        (classesInput t "").classes = []) := by
  have hround : (classesInput t (String.intercalate "\n" (classesInput s text).classes)).classes =
      (classesInput s text).classes := parseClasses_intercalate text
  refine ⟨hround, ?_, ?_⟩
  · intro a ha
    have htxt : a.classesTxt = String.intercalate "\n" (classesInput s text).classes := by
      unfold exportBtn at ha
      split_ifs at ha
      simp only [Option.some.injEq] at ha
      rw [← ha]
    rw [htxt]
    exact ⟨rfl, hround⟩
  · intro hempty
    rw [hempty]
    have hnil : parseClasses "" = [] := by decide
    exact ⟨rfl, hnil⟩

/-- The edit of the class text back from the joined names of `cat` and `dog`. -/
theorem classes_file_round_trip_witness :
    (classesInput initialState
        (String.intercalate "\n" (classesInput initialState " cat \n\ndog").classes)).classes =
      ["cat", "dog"] := by
  rw [(classes_file_round_trip initialState initialState " cat \n\ndog").1]
  decide

/-! ## Validity of stored boxes -/

theorem loadImage_frame (s : State) (index : Int) :
    (loadImage s index).annotations = s.annotations ∧
      (loadImage s index).startX = s.startX ∧ (loadImage s index).startY = s.startY ∧
      (loadImage s index).currentBox = s.currentBox ∧
      (loadImage s index).drawing = s.drawing ∧
      (loadImage s index).images = s.images ∧
      (loadImage s index).classes = s.classes ∧
      (loadImage s index).classSelect = s.classSelect := by
  unfold loadImage
  split_ifs
  · exact ⟨rfl, rfl, rfl, rfl, rfl, rfl, rfl, rfl⟩
  · split <;> exact ⟨rfl, rfl, rfl, rfl, rfl, rfl, rfl, rfl⟩

theorem drop_frame (s : State) (files : List ImageFile) (localeCompare : String → String → Int) :
    (drop s files localeCompare).annotations = s.annotations ∧
      (drop s files localeCompare).startX = s.startX ∧
      (drop s files localeCompare).startY = s.startY ∧
      (drop s files localeCompare).currentBox = s.currentBox ∧
      (drop s files localeCompare).drawing = s.drawing ∧
      (drop s files localeCompare).classes = s.classes ∧
      (drop s files localeCompare).classSelect = s.classSelect := by
  simp only [drop]
  split_ifs
  · have hf := fun t : State => loadImage_frame t 0
    exact ⟨(hf _).1, (hf _).2.1, (hf _).2.2.1, (hf _).2.2.2.1, (hf _).2.2.2.2.1,
      (hf _).2.2.2.2.2.2.1, (hf _).2.2.2.2.2.2.2⟩
  · exact ⟨rfl, rfl, rfl, rfl, rfl, rfl, rfl⟩

theorem toImage_nonneg (s : State) (e : MouseEvent) (rect : ClientRect)
    (h : insideSurface e rect) : 0 ≤ toImageX s e rect ∧ 0 ≤ toImageY s e rect := by
  obtain ⟨hw, hh, hx, _, hy, _⟩ := h
  constructor
  · exact mul_nonneg (by linarith) (div_nonneg (Nat.cast_nonneg _) (le_of_lt hw))
  · exact mul_nonneg (by linarith) (div_nonneg (Nat.cast_nonneg _) (le_of_lt hh))

theorem dragBox_nonneg (sx sy cx cy : ℚ) (h1 : 0 ≤ sx) (h2 : 0 ≤ sy) (h3 : 0 ≤ cx)
    (h4 : 0 ≤ cy) : 0 ≤ (dragBox sx sy cx cy).x ∧ 0 ≤ (dragBox sx sy cx cy).y := by
  simp only [dragBox]
  constructor <;> split_ifs <;> assumption

theorem storeValid_of_eq (s t : State) (h : t.annotations = s.annotations) (hs : storeValid s) :
    storeValid t := by
  intro name bs hbs
  rw [h] at hbs
  exact hs name bs hbs

theorem storeValid_set (s t : State) (key : String) (bs : List Box)
    (h : t.annotations = setAnnotations s.annotations key bs) (hs : storeValid s)
    (hbs : ∀ b ∈ bs, boxValid b) : storeValid t := by
  intro name cs hcs
  rw [h] at hcs
  by_cases hk : name = key
  · rw [hk, setAnnotations_same] at hcs
    cases hcs
    exact hbs
  · rw [setAnnotations_other _ _ _ _ hk] at hcs
    exact hs name cs hcs

theorem boxesOf_valid (s : State) (hs : storeValid s) (key : String) :
    ∀ b ∈ boxesOf s key, boxValid b := by
  intro b hb
  unfold boxesOf at hb
  cases hk : s.annotations key with
  | none => rw [hk] at hb; cases hb
  | some bs => rw [hk] at hb; exact hs key bs hk b hb

theorem step_preserves_valid (s : State) (ev : Event) (hin : pointerInside ev)
    (hs : storeValid s) (hd : dragValid s) :
    storeValid (step s ev) ∧ dragValid (step s ev) := by
  cases ev with
  | mousedown e rect =>
    have hpos := toImage_nonneg s e rect hin
    simp only [step, mousedown]
    split_ifs
    · exact ⟨storeValid_of_eq s _ rfl hs, hd⟩
    · exact ⟨storeValid_of_eq s _ rfl hs, hpos.1, hpos.2, hd.2.2⟩
  | mousemove e rect =>
    have hpos := toImage_nonneg s e rect hin
    simp only [step, mousemove]
    split_ifs
    · exact ⟨hs, hd⟩
    · refine ⟨storeValid_of_eq s _ rfl hs, hd.1, hd.2.1, ?_⟩
      intro r hr
      simp only [Option.some.injEq] at hr
      rw [← hr]
      exact dragBox_nonneg _ _ _ _ hd.1 hd.2.1 hpos.1 hpos.2
  | mouseup =>
    simp only [step]
    cases hcommit : commitBox s with
    | none =>
      rw [mouseup_of_no_commit s hcommit]
      refine ⟨storeValid_of_eq s _ rfl hs, hd.1, hd.2.1, ?_⟩
      intro r hr
      cases hr
    | some b =>
      rw [mouseup_of_commit s b hcommit]
      obtain ⟨_, hcur, hw, hh⟩ := (commitBox_eq_some_iff s b).mp hcommit
      have hb := hd.2.2 b hcur
      refine ⟨storeValid_set s _ _ _ rfl hs ?_, hd.1, hd.2.1, ?_⟩
      · intro c hc
        rcases List.mem_append.mp hc with hold | hnew
        · exact boxesOf_valid s hs _ c hold
        · rw [List.mem_singleton.mp hnew]
          exact ⟨hb.1, hb.2, hw, hh⟩
      · intro r hr
        cases hr
  | keydown key =>
    simp only [step, keydown]
    split_ifs
    · have hf := loadImage_frame s (s.currentIndex + 1)
      refine ⟨storeValid_of_eq s _ hf.1 hs, ?_⟩
      unfold dragValid
      rw [hf.2.1, hf.2.2.1, hf.2.2.2.1]
      exact hd
    · have hf := loadImage_frame s (s.currentIndex - 1)
      refine ⟨storeValid_of_eq s _ hf.1 hs, ?_⟩
      unfold dragValid
      rw [hf.2.1, hf.2.2.1, hf.2.2.2.1]
      exact hd
    · cases hsel : State.selectedAnnotation s with
      | none => exact ⟨hs, hd⟩
      | some sel =>
        cases hbs : s.annotations (keyOf (fileName s)) with
        | none => exact ⟨hs, hd⟩
        | some bs =>
          refine ⟨storeValid_set s _ _ _ rfl hs ?_, hd⟩
          intro b hb
          exact hs _ bs hbs b ((List.eraseIdx_sublist bs sel).subset hb)
    · exact ⟨hs, hd⟩
  | wheel deltaY =>
    simp only [step, wheel]
    split_ifs <;> exact ⟨hs, hd⟩
  | clear confirm =>
    simp only [step, clearBtn]
    cases hfn : fileName s with
    | none => exact ⟨hs, hd⟩
    | some fn =>
      simp only
      split_ifs
      · refine ⟨storeValid_set s _ _ _ rfl hs ?_, hd⟩
        intro b hb
        cases hb
      · exact ⟨hs, hd⟩
  | classesInput text =>
    exact ⟨storeValid_of_eq s _ rfl hs, hd⟩
  | imageClick index =>
    have hf := loadImage_frame s (index : Int)
    simp only [step, imageClick]
    refine ⟨storeValid_of_eq s _ hf.1 hs, ?_⟩
    unfold dragValid
    rw [hf.2.1, hf.2.2.1, hf.2.2.2.1]
    exact hd
  | drop files localeCompare =>
    have hf := drop_frame s files localeCompare
    simp only [step]
    refine ⟨storeValid_of_eq s _ hf.1 hs, ?_⟩
    unfold dragValid
    rw [hf.2.1, hf.2.2.1, hf.2.2.2.1]
    exact hd

theorem run_preserves_valid (events : List Event) :
    ∀ s : State, (∀ ev ∈ events, pointerInside ev) → storeValid s → dragValid s →
      storeValid (run s events) ∧ dragValid (run s events) := by
  induction events with
  | nil =>
    intro s _ hs hd
    exact ⟨hs, hd⟩
  | cons ev rest ih =>
    intro s hin hs hd
    have hstep := step_preserves_valid s ev (hin ev (List.mem_cons_self _ _)) hs hd
    have := ih (step s ev) (fun e he => hin e (List.mem_cons_of_mem _ he)) hstep.1 hstep.2
    simpa [run] using this

/-- C17: in every state reached from the initial state by any sequence of pointer press, move
and release, key, wheel, clear, class edit, image list click and load events whose pointer
positions lie inside the rendering surface, every box stored under any image name has
`x ≥ 0`, `y ≥ 0`, `width > 5` and `height > 5`. -/
theorem stored_boxes_valid (events : List Event) (hin : ∀ ev ∈ events, pointerInside ev) :
    ∀ (name : String) (bs : List Box), (run initialState events).annotations name = some bs →
      ∀ b ∈ bs, 0 ≤ b.x ∧ 0 ≤ b.y ∧ 5 < b.width ∧ 5 < b.height := by
  have hs : storeValid initialState := by
    intro name bs h
    cases h
  have hd : dragValid initialState := by
    refine ⟨le_refl _, le_refl _, ?_⟩
    intro r h
    cases h
  exact (run_preserves_valid events initialState hin hs hd).1

/-! ## Concrete runs -/

theorem run_append (s : State) (xs ys : List Event) : run s (xs ++ ys) = run (run s xs) ys := by
  simp only [run, List.foldl_append]

theorem run_loadedOne :
    run initialState
      [Event.classesInput "cat", Event.drop [⟨"a.png", 300, 150⟩] codePointCompare] =
      loadedOne := by
  have hc : parseClasses "cat" = ["cat"] := by decide
  have hf : ([⟨"a.png", 300, 150⟩] : List ImageFile).filter (fun f => isImageName f.name) =
      [⟨"a.png", 300, 150⟩] := by decide
  simp only [run, List.foldl, step, classesInput, hc, drop, hf, List.mergeSort_singleton,
    List.length_singleton, gt_iff_lt, zero_lt_one, if_true]
  rw [loadImage_eq _ 0 ⟨"a.png", 300, 150⟩ (by decide)]
  rfl

theorem run_drawSmallBox (s : State) (hcw : s.canvasWidth = 300) (hch : s.canvasHeight = 150)
    (hno : currentBoxes s = []) :
    run s drawSmallBox =
      { s with
        startX := 10
        startY := 10
        drawing := false
        currentBox := none
        selectedAnnotation := none
        annotations := setAnnotations s.annotations (keyOf (fileName s))
          [{ toRect := ⟨10, 10, 40, 40⟩, class_ := s.classSelect,
             className := classNameAt s.classes s.classSelect }] } := by
  have hx1 : toImageX s ⟨10, 10⟩ smallRect = 10 := by
    simp only [toImageX, hcw, smallRect]; norm_num
  have hy1 : toImageY s ⟨10, 10⟩ smallRect = 10 := by
    simp only [toImageY, hch, smallRect]; norm_num
  have hdown : mousedown s ⟨10, 10⟩ smallRect =
      { s with drawing := true, startX := 10, startY := 10, selectedAnnotation := none } := by
    simp only [mousedown, hno, clickedBox, List.length_nil, hitLoop, hx1, hy1, ne_eq,
      not_true_eq_false, if_false]
  have hmove : mousemove
      { s with drawing := true, startX := 10, startY := 10, selectedAnnotation := none }
      ⟨50, 50⟩ smallRect =
      { s with drawing := true, startX := 10, startY := 10, selectedAnnotation := none,
               currentBox := some ⟨10, 10, 40, 40⟩ } := by
    simp only [mousemove, toImageX, toImageY, hcw, hch, smallRect, dragBox]
    norm_num
  have hcommit : commitBox
      { s with drawing := true, startX := 10, startY := 10, selectedAnnotation := none,
               currentBox := some ⟨10, 10, 40, 40⟩ } = some ⟨10, 10, 40, 40⟩ := by
    simp only [commitBox]
    norm_num
  have hboxes : boxesOf s (keyOf (fileName s)) = [] := hno
  simp only [run, drawSmallBox, List.foldl, step]
  rw [hdown, hmove, mouseup_of_commit _ _ hcommit]
  simp only [boxesOf, fileName, keyOf] at hboxes ⊢
  simp only [hboxes, List.nil_append]

theorem run_drawn :
    run initialState
      ([Event.classesInput "cat", Event.drop [⟨"a.png", 300, 150⟩] codePointCompare] ++
        drawSmallBox) =
      { loadedOne with
        startX := 10
        startY := 10
        annotations := setAnnotations (fun _ => none) "a.png" [boxAt 10 10 40 40] } := by
  rw [run_append, run_loadedOne, run_drawSmallBox loadedOne rfl rfl (by decide)]
  have hkey : keyOf (fileName loadedOne) = "a.png" := by decide
  rw [hkey]
  rfl

theorem run_drawAndSelect :
    run initialState drawAndSelect =
      { loadedOne with
        startX := 10
        startY := 10
        annotations := setAnnotations (fun _ => none) "a.png" [boxAt 10 10 40 40]
        selectedAnnotation := some 0 } := by
  have hsplit : drawAndSelect =
      ([Event.classesInput "cat", Event.drop [⟨"a.png", 300, 150⟩] codePointCompare] ++
        drawSmallBox) ++ [Event.mousedown ⟨20, 20⟩ smallRect] := rfl
  rw [hsplit, run_append, run_drawn]
  have hcur : currentBoxes
      { loadedOne with
        startX := 10
        startY := 10
        annotations := setAnnotations (fun _ => none) "a.png" [boxAt 10 10 40 40] } =
      [boxAt 10 10 40 40] := by
    simp [currentBoxes, boxesOf, loadedOne, initialState, fileName, imageAt, keyOf,
      setAnnotations]
  simp only [run, List.foldl, step, mousedown, hcur, clickedBox, List.length_singleton, hitLoop]
  simp only [toImageX, toImageY, loadedOne, initialState, smallRect, containsPoint, boxAt]
  norm_num

theorem run_selectThenEmptyDrop :
    run initialState selectThenEmptyDrop =
      { loadedOne with
        images := []
        startX := 10
        startY := 10
        annotations := setAnnotations (fun _ => none) "a.png" [boxAt 10 10 40 40]
        selectedAnnotation := some 0 } := by
  rw [selectThenEmptyDrop, run_append, run_drawAndSelect]
  simp only [run, List.foldl, step]
  rw [drop_of_no_image _ _ _ (by decide)]

/-- After the class `cat` is entered, `a.png` is loaded and a box is dragged from (10, 10) to
(50, 50) and clicked, the store holds that box under `a.png`, with sides above 5. -/
theorem stored_boxes_valid_witness :
    (run initialState drawAndSelect).annotations "a.png" = some [boxAt 10 10 40 40] ∧
      0 ≤ (boxAt 10 10 40 40).x ∧ 0 ≤ (boxAt 10 10 40 40).y ∧
      5 < (boxAt 10 10 40 40).width ∧ 5 < (boxAt 10 10 40 40).height := by
  have hann : (run initialState drawAndSelect).annotations "a.png" =
      some [boxAt 10 10 40 40] := by
    rw [run_drawAndSelect]
    simp [setAnnotations]
  have hin : ∀ ev ∈ drawAndSelect, pointerInside ev := by
    intro ev hev
    simp only [drawAndSelect, List.mem_cons, List.mem_singleton, List.not_mem_nil,
      or_false] at hev
    rcases hev with h | h | h | h | h | h <;> subst h <;>
      simp only [pointerInside, insideSurface, smallRect] <;> norm_num
  exact ⟨hann, stored_boxes_valid drawAndSelect hin "a.png" _ hann (boxAt 10 10 40 40)
    (List.mem_singleton.mpr rfl)⟩

/-! ## Selection after a load without images -/

/-- C18 fails on the code: after the class `cat` is entered, `a.png` is loaded, a box is
drawn and clicked (selection 0, a valid index), the drop of a folder that holds only
`notes.txt` empties the image list and keeps the selection 0, while the box sequence of the
displayed image is then empty. -/
theorem selection_survives_empty_drop :
    State.selectedAnnotation (run initialState drawAndSelect) = some 0 ∧
      currentBoxes (run initialState drawAndSelect) = [boxAt 10 10 40 40] ∧
      (run initialState selectThenEmptyDrop).images = [] ∧
      fileName (run initialState selectThenEmptyDrop) = none ∧
      State.selectedAnnotation (run initialState selectThenEmptyDrop) = some 0 ∧
      currentBoxes (run initialState selectThenEmptyDrop) = [] := by
  rw [run_drawAndSelect, run_selectThenEmptyDrop]
  refine ⟨rfl, ?_, rfl, ?_, rfl, ?_⟩
  · simp [currentBoxes, boxesOf, loadedOne, initialState, fileName, imageAt, keyOf,
      setAnnotations]
  · simp [loadedOne, initialState, fileName, imageAt]
  · simp [currentBoxes, boxesOf, loadedOne, initialState, fileName, imageAt, keyOf,
      setAnnotations]

/-! ## Class of a box drawn without classes -/

/-- C19 fails on the code: after the class `cat` is entered, `a.png` is loaded and the class
text is emptied, a drag from (10, 10) to (50, 50) appends a box whose class index is `NaN`
and whose class name is `undefined`, the registry being empty. -/
theorem release_without_classes_stores_nan :
    (run initialState drawWithoutClasses).classes = [] ∧
      boxesOf (run initialState
        [Event.classesInput "cat", Event.drop [⟨"a.png", 300, 150⟩] codePointCompare,
         Event.classesInput ""]) "a.png" = [] ∧
      boxesOf (run initialState drawWithoutClasses) "a.png" =
        [{ toRect := ⟨10, 10, 40, 40⟩, class_ := none, className := none }] := by
  have hempty : parseClasses "" = [] := by decide
  have hthree : run initialState
      [Event.classesInput "cat", Event.drop [⟨"a.png", 300, 150⟩] codePointCompare,
       Event.classesInput ""] =
      { loadedOne with classes := [], classSelect := none } := by
    have hsplit : [Event.classesInput "cat",
        Event.drop [⟨"a.png", 300, 150⟩] codePointCompare, Event.classesInput ""] =
        [Event.classesInput "cat", Event.drop [⟨"a.png", 300, 150⟩] codePointCompare] ++
          [Event.classesInput ""] := rfl
    rw [hsplit, run_append, run_loadedOne]
    simp only [run, List.foldl, step, classesInput, hempty, List.length_nil, gt_iff_lt,
      lt_self_iff_false, if_false]
  have hall : run initialState drawWithoutClasses =
      run { loadedOne with classes := [], classSelect := none } drawSmallBox := by
    have hsplit : drawWithoutClasses =
        [Event.classesInput "cat", Event.drop [⟨"a.png", 300, 150⟩] codePointCompare,
          Event.classesInput ""] ++ drawSmallBox := rfl
    rw [hsplit, run_append, hthree]
  rw [hall, hthree, run_drawSmallBox _ rfl rfl (by decide)]
  refine ⟨rfl, by decide, ?_⟩
  have hkey : keyOf (fileName { loadedOne with classes := [], classSelect := none }) =
      "a.png" := by decide
  rw [hkey]
  simp [boxesOf, setAnnotations, classNameAt]

/-! ## What holds apart from the two defects -/

theorem loadImage_selection (s : State) (index : Int) :
    loadImage s index = s ∨ State.selectedAnnotation (loadImage s index) = none := by
  unfold loadImage
  split_ifs
  · exact Or.inl rfl
  · split <;> exact Or.inr rfl

theorem selectionValid_of_none (s : State) (h : State.selectedAnnotation s = none) :
    selectionValid s := by
  intro i hi
  rw [h] at hi
  cases hi

theorem step_preserves_selection (s : State) (ev : Event) (hev : deliversImage ev)
    (hs : selectionValid s) : selectionValid (step s ev) := by
  cases ev with
  | mousedown e rect =>
    simp only [step, mousedown]
    split_ifs with hhit
    · rcases clickedBox_cases (currentBoxes s) (toImageX s e rect) (toImageY s e rect) with
        ⟨h1, _⟩ | ⟨i, b, hi, h1, _, _, _⟩
      · exact absurd h1 hhit
      · intro j hj
        simp only [h1, Int.toNat_ofNat, Option.some.injEq] at hj
        rw [← hj]
        exact hi
    · exact selectionValid_of_none _ rfl
  | mousemove e rect =>
    simp only [step, mousemove]
    split_ifs
    · exact hs
    · exact hs
  | mouseup =>
    simp only [step]
    cases hcommit : commitBox s with
    | none =>
      rw [mouseup_of_no_commit s hcommit]
      exact hs
    | some b =>
      rw [mouseup_of_commit s b hcommit]
      intro i hi
      have hold := hs i hi
      have hcur : currentBoxes
          { s with
            annotations := setAnnotations s.annotations (keyOf (fileName s))
              (boxesOf s (keyOf (fileName s)) ++
                [{ toRect := b, class_ := s.classSelect,
                   className := classNameAt s.classes s.classSelect }])
            drawing := false
            currentBox := none } =
          currentBoxes s ++ [{ toRect := b, class_ := s.classSelect,
                               className := classNameAt s.classes s.classSelect }] := by
        simp only [currentBoxes, boxesOf, fileName, setAnnotations_same, Option.getD_some]
      rw [hcur, List.length_append]
      omega
  | keydown key =>
    simp only [step, keydown]
    split_ifs
    · rcases loadImage_selection s (s.currentIndex + 1) with h | h
      · rw [h]; exact hs
      · exact selectionValid_of_none _ h
    · rcases loadImage_selection s (s.currentIndex - 1) with h | h
      · rw [h]; exact hs
      · exact selectionValid_of_none _ h
    · cases hsel : State.selectedAnnotation s with
      | none => exact hs
      | some sel =>
        cases hbs : s.annotations (keyOf (fileName s)) with
        | none => exact hs
        | some bs => exact selectionValid_of_none _ rfl
    · exact hs
  | wheel deltaY =>
    simp only [step, wheel]
    split_ifs <;> exact hs
  | clear confirm =>
    simp only [step, clearBtn]
    cases hfn : fileName s with
    | none => exact hs
    | some fn =>
      simp only
      split_ifs
      · exact selectionValid_of_none _ rfl
      · exact hs
  | classesInput text => exact hs
  | imageClick index =>
    simp only [step, imageClick]
    rcases loadImage_selection s (index : Int) with h | h
    · rw [h]; exact hs
    · exact selectionValid_of_none _ h
  | drop files localeCompare =>
    exact selectionValid_of_none _ (drop_of_some_image s files localeCompare hev).2.2.1

theorem selection_valid_when_drops_deliver (events : List Event) :
    ∀ s : State, (∀ ev ∈ events, deliversImage ev) → selectionValid s →
      selectionValid (run s events) := by
  induction events with
  | nil =>
    intro s _ hs
    exact hs
  | cons ev rest ih =>
    intro s hev hs
    have hstep := step_preserves_selection s ev (hev ev (List.mem_cons_self _ _)) hs
    have := ih (step s ev) (fun e he => hev e (List.mem_cons_of_mem _ he)) hstep
    simpa [run] using this

theorem step_preserves_selector (s : State) (ev : Event) (hs : selectorValid s) :
    selectorValid (step s ev) := by
  have keep : ∀ t : State, t.classes = s.classes → t.classSelect = s.classSelect →
      selectorValid t := by
    intro t h1 h2
    unfold selectorValid
    rw [h1, h2]
    exact hs
  cases ev with
  | mousedown e rect =>
    simp only [step, mousedown]
    split_ifs <;> exact keep _ rfl rfl
  | mousemove e rect =>
    simp only [step, mousemove]
    split_ifs <;> exact keep _ rfl rfl
  | mouseup =>
    simp only [step]
    cases hcommit : commitBox s with
    | none => rw [mouseup_of_no_commit s hcommit]; exact keep _ rfl rfl
    | some b => rw [mouseup_of_commit s b hcommit]; exact keep _ rfl rfl
  | keydown key =>
    simp only [step, keydown]
    split_ifs
    · exact keep _ (loadImage_frame s _).2.2.2.2.2.2.1 (loadImage_frame s _).2.2.2.2.2.2.2
    · exact keep _ (loadImage_frame s _).2.2.2.2.2.2.1 (loadImage_frame s _).2.2.2.2.2.2.2
    · cases hsel : State.selectedAnnotation s with
      | none => exact hs
      | some sel =>
        cases hbs : s.annotations (keyOf (fileName s)) with
        | none => exact hs
        | some bs => exact keep _ rfl rfl
    · exact hs
  | wheel deltaY =>
    simp only [step, wheel]
    by_cases h0 : s.classes.length = 0
    · simp only [h0, if_true]
      exact hs
    · simp only [h0, if_false]
      intro _
      obtain ⟨c, hc, hlt⟩ := hs (fun hnil => h0 (by rw [hnil]; rfl))
      simp only [hc]
      by_cases hd : deltaY < 0
      · by_cases hp : c > 0
        · refine ⟨c - 1, ?_, by omega⟩
          simp only [hd, hp, if_true]
          rw [if_pos (by omega)]
        · refine ⟨s.classes.length - 1, ?_, by omega⟩
          simp only [hd, hp, if_true, if_false]
          rw [if_pos (by omega)]
      · by_cases hp : c < s.classes.length - 1
        · refine ⟨c + 1, ?_, by omega⟩
          simp only [hd, hp, if_true, if_false]
          rw [if_pos (by omega)]
        · refine ⟨0, ?_, by omega⟩
          simp only [hd, hp, if_false]
          rw [if_pos (by omega)]
  | clear confirm =>
    simp only [step, clearBtn]
    cases hfn : fileName s with
    | none => exact hs
    | some fn =>
      simp only
      split_ifs
      · exact keep _ rfl rfl
      · exact hs
  | classesInput text =>
    simp only [step, classesInput]
    intro hne
    have hpos : 0 < (parseClasses text).length := List.length_pos.mpr hne
    exact ⟨0, by simp only [gt_iff_lt, hpos, if_true], hpos⟩
  | imageClick index =>
    simp only [step, imageClick]
    exact keep _ (loadImage_frame s _).2.2.2.2.2.2.1 (loadImage_frame s _).2.2.2.2.2.2.2
  | drop files localeCompare =>
    have hf := drop_frame s files localeCompare
    exact keep _ hf.2.2.2.2.2.1 hf.2.2.2.2.2.2

theorem selector_valid_with_classes (events : List Event) :
    ∀ s : State, selectorValid s → selectorValid (run s events) := by
  induction events with
  | nil =>
    intro s hs
    exact hs
  | cons ev rest ih =>
    intro s hs
    have := ih (step s ev) (step_preserves_selector s ev hs)
    simpa [run] using this

theorem selection_valid_from_initial (events : List Event)
    (h : ∀ ev ∈ events, deliversImage ev) : selectionValid (run initialState events) :=
  selection_valid_when_drops_deliver events initialState h (selectionValid_of_none _ rfl)

theorem release_class_with_classes (events : List Event) (b : Rect)
    (hne : (run initialState events).classes ≠ [])
    (hcommit : commitBox (run initialState events) = some b) :
    ∃ c name, c < (run initialState events).classes.length ∧
      (run initialState events).classes.get? c = some name ∧
      boxesOf (mouseup (run initialState events)) (keyOf (fileName (run initialState events))) =
        boxesOf (run initialState events) (keyOf (fileName (run initialState events))) ++
          [{ toRect := b, class_ := some c, className := some name }] := by
  have hsel : selectorValid (run initialState events) :=
    selector_valid_with_classes events initialState (fun h => absurd rfl h)
  obtain ⟨c, hc, hlt⟩ := hsel hne
  refine ⟨c, (run initialState events).classes.get ⟨c, hlt⟩, hlt, List.get?_eq_get hlt, ?_⟩
  rw [mouseup_of_commit _ b hcommit]
  simp only [boxesOf, setAnnotations_same, Option.getD_some, hc, classNameAt, Option.some_bind,
    List.get?_eq_get hlt]

end VNotation
